import Mathlib

/-!
Verification of the aggregation pipeline of the Azure DevOps commits report
generator (`git_rep_gen.py` and `azure_commits_pdf.py`).

The Python source is shallowly embedded: strings are `String` (operated on as
`List Char`, matching Python's code-point semantics for the ASCII data this
program handles), dictionaries are insertion-ordered association lists,
`datetime` values are an explicit structure parsed from the ISO-8601 layouts
the provider emits, the remote API is an explicit oracle argument, and Python
exceptions are `Except` values.  A `try/except` block becomes a `match` on the
`Except` result of the embedded body.
-/

/-! ### Python string primitives -/

/-- Python `pat in s` (substring containment) on character lists. -/
def containsL : List Char → List Char → Bool
  | [], pat => pat.isEmpty
  | c :: rest, pat => pat.isPrefixOf (c :: rest) || containsL rest pat

/-- Fuel-driven worker for `replaceL`.  The fuel is always instantiated with
the length of the subject list, which is enough to finish the scan; it exists
only to make the left-to-right scan of Python `str.replace` structural. -/
def replaceLF (old new : List Char) : Nat → List Char → List Char
  | _, [] => []
  | 0, l => l
  | fuel + 1, c :: rest =>
    if old.isPrefixOf (c :: rest) && !old.isEmpty then
      new ++ replaceLF old new fuel ((c :: rest).drop old.length)
    else
      c :: replaceLF old new fuel rest

/-- Python `s.replace(old, new)` on character lists: replaces every
non-overlapping occurrence of `old`, scanning left to right.  (All call sites
in the source pass a non-empty `old`; for `old = []` this returns `s`.) -/
def replaceL (old new s : List Char) : List Char :=
  replaceLF old new s.length s

/-- Python `s.replace(old, new)` on strings. -/
def pyReplace (s old new : String) : String :=
  ⟨replaceL old.data new.data s.data⟩

/-- Worker for `splitChar`; `acc` holds the current segment reversed. -/
def splitCharAux (sep : Char) : List Char → List Char → List (List Char)
  | acc, [] => [acc.reverse]
  | acc, c :: rest =>
    if c = sep then acc.reverse :: splitCharAux sep [] rest
    else splitCharAux sep (c :: acc) rest

/-- Python `s.split(sep)` for a single-character separator. -/
def splitChar (sep : Char) (l : List Char) : List (List Char) :=
  splitCharAux sep [] l

/-- Python `s.split('/')` on strings. -/
def pySplitSlash (s : String) : List String :=
  (splitChar '/' s.data).map String.mk

/-- Python `str.lower` (ASCII model; the data this program handles is ASCII). -/
def pyLower (s : String) : String :=
  ⟨s.data.map Char.toLower⟩

/-- The characters Python `str.strip()` removes (ASCII whitespace). -/
def isPySpace (c : Char) : Bool :=
  c = ' ' || c = '\t' || c = '\n' || c = '\r' || c = '\x0b' || c = '\x0c'

/-- Python `s.strip()` on character lists. -/
def pyStripL (l : List Char) : List Char :=
  ((l.dropWhile isPySpace).reverse.dropWhile isPySpace).reverse

/-- Python `s.strip()` on strings. -/
def pyStrip (s : String) : String :=
  ⟨pyStripL s.data⟩

/-- Lexicographic `≤` on character lists: Python's string comparison. -/
def strLeL : List Char → List Char → Bool
  | [], _ => true
  | _ :: _, [] => false
  | a :: as, b :: bs => if a = b then strLeL as bs else decide (a < b)

/-- Python's `s <= t` on strings (code-point lexicographic order). -/
def pyStrLe (a b : String) : Bool :=
  strLeL a.data b.data

/-! ### Basic lemmas about the string primitives -/

theorem containsL_nil (s : List Char) : containsL s [] = true := by
  cases s <;> simp [containsL]

theorem containsL_of_prefix {s pat : List Char} (h : pat <+: s) :
    containsL s pat = true := by
  cases s with
  | nil =>
    rw [List.prefix_nil] at h
    subst h
    rfl
  | cons c rest =>
    simp [containsL]
    exact Or.inl h

theorem containsL_append_left {a pat : List Char} (b : List Char)
    (h : containsL a pat = true) : containsL (a ++ b) pat = true := by
  induction a with
  | nil =>
    simp [containsL, List.isEmpty_iff] at h
    subst h
    exact containsL_nil _
  | cons c rest ih =>
    simp [containsL] at h ⊢
    rcases h with h | h
    · exact Or.inl (h.trans ⟨b, by simp⟩)
    · exact Or.inr (ih h)

theorem containsL_append_right {b pat : List Char} (a : List Char)
    (h : containsL b pat = true) : containsL (a ++ b) pat = true := by
  induction a with
  | nil => simpa using h
  | cons c rest ih => simp [containsL, ih]

theorem mem_of_containsL {s pat : List Char} (h : containsL s pat = true)
    {c : Char} (hc : c ∈ pat) : c ∈ s := by
  induction s with
  | nil =>
    simp [containsL, List.isEmpty_iff] at h
    subst h
    simp at hc
  | cons d rest ih =>
    simp [containsL] at h
    rcases h with h | h
    · exact h.subset hc
    · exact List.mem_cons_of_mem _ (ih h)

theorem not_containsL_of_not_mem {s pat : List Char} {c : Char}
    (hc : c ∈ pat) (hs : c ∉ s) : containsL s pat = false := by
  cases h : containsL s pat
  · rfl
  · exact absurd (mem_of_containsL h hc) hs

theorem replaceLF_of_not_containsL {old new s : List Char} (fuel : Nat)
    (h : containsL s old = false) : replaceLF old new fuel s = s := by
  induction fuel generalizing s with
  | zero => cases s <;> rfl
  | succ fuel ih =>
    cases s with
    | nil => rfl
    | cons c rest =>
      simp only [containsL, Bool.or_eq_false_iff] at h
      have hcond : (old.isPrefixOf (c :: rest) && !old.isEmpty) = false := by
        simp [h.1]
      simp [replaceLF, hcond, ih h.2]

theorem replaceL_of_not_containsL {old new s : List Char}
    (h : containsL s old = false) : replaceL old new s = s :=
  replaceLF_of_not_containsL _ h

theorem replaceL_append_of_not_containsL {old new tail : List Char}
    (hne : old ≠ []) (h : containsL tail old = false) :
    replaceL old new (old ++ tail) = new ++ tail := by
  cases old with
  | nil => exact absurd rfl hne
  | cons c cs =>
    have hcond : ((c :: cs).isPrefixOf (c :: (cs ++ tail)) && !(c :: cs).isEmpty) = true := by
      simp
    have hdrop : List.drop (c :: cs).length (c :: (cs ++ tail)) = tail := by
      rw [← List.cons_append]
      exact List.drop_left _ _
    show replaceLF (c :: cs) new ((c :: cs) ++ tail).length ((c :: cs) ++ tail) = _
    rw [List.cons_append, List.length_cons]
    simp only [replaceLF, hcond, if_true, hdrop, if_pos]
    rw [replaceLF_of_not_containsL _ h]

/-- Single-character replacement is a character map. -/
theorem replaceLF_single {a b : Char} {s : List Char} (fuel : Nat)
    (hf : s.length ≤ fuel) :
    replaceLF [a] [b] fuel s = s.map (fun c => if c = a then b else c) := by
  induction s generalizing fuel with
  | nil => cases fuel <;> rfl
  | cons c rest ih =>
    cases fuel with
    | zero => simp at hf
    | succ fuel =>
      simp only [List.length_cons, Nat.succ_le_succ_iff] at hf
      by_cases hc : c = a
      · subst hc
        have hpre : [c].isPrefixOf (c :: rest) = true := by
          simp
        simp [replaceLF, hpre, ih _ hf]
      · have hpre : [a].isPrefixOf (c :: rest) = false := by
          cases hp : [a].isPrefixOf (c :: rest)
          · rfl
          · rw [ List.isPrefixOf_iff_prefix, List.cons_prefix_cons] at hp
            exact absurd hp.1.symm hc
        simp [replaceLF, hpre, hc, ih _ hf]

theorem replaceL_single {a b : Char} {s : List Char} :
    replaceL [a] [b] s = s.map (fun c => if c = a then b else c) :=
  replaceLF_single _ le_rfl

theorem splitCharAux_of_not_mem {sep : Char} {l : List Char} (acc : List Char)
    (h : sep ∉ l) : splitCharAux sep acc l = [acc.reverse ++ l] := by
  induction l generalizing acc with
  | nil => simp [splitCharAux]
  | cons c rest ih =>
    simp at h
    simp [splitCharAux, Ne.symm h.1, ih _ h.2]

theorem splitCharAux_append {sep : Char} {xs : List Char} (acc ys : List Char)
    (h : sep ∉ xs) :
    splitCharAux sep acc (xs ++ sep :: ys) =
      (acc.reverse ++ xs) :: splitCharAux sep [] ys := by
  induction xs generalizing acc with
  | nil => simp [splitCharAux]
  | cons c rest ih =>
    simp at h
    simp [splitCharAux, Ne.symm h.1, ih _ h.2]

theorem splitChar_of_not_mem {sep : Char} {l : List Char} (h : sep ∉ l) :
    splitChar sep l = [l] := by
  simpa [splitChar] using splitCharAux_of_not_mem [] h

theorem splitChar_append {sep : Char} {xs : List Char} (ys : List Char)
    (h : sep ∉ xs) : splitChar sep (xs ++ sep :: ys) = xs :: splitChar sep ys := by
  simpa [splitChar] using splitCharAux_append [] ys h

/-! ### The URL parser (`parse_repo_url`, identical in both source files) -/

/-- The ways the embedded Python code can fail: `unsupportedFormat` is the
`ValueError("Unsupported repository URL format: ...")` raised by
`parse_repo_url` (the spec's `UnsupportedFormatError`); the other
constructors model the remaining exception kinds the code can raise. -/
inductive PyErr where
  | unsupportedFormat
  | indexError
  | keyError
  | transportError
  | jsonError
deriving DecidableEq, Repr

/-- `parse_repo_url` from both source files: positional parsing of the two
recognized provider URL shapes, keyed on a host-name substring test.
`parts[i]` accesses are modeled with `List.getElem?`, turning an
out-of-range index into Python's `IndexError`. -/
def parse_repo_url (repo_url : String) : Except PyErr (String × String × String) :=
  if containsL repo_url.data "dev.azure.com".data then
    let parts := pySplitSlash (pyReplace repo_url "https://dev.azure.com/" "")
    match parts[0]?, parts[1]? with
    | some organization, some project =>
      if 3 < parts.length then
        match parts[3]? with
        | some r => .ok (organization, project, r)
        | none => .error .indexError
      else
        match parts[2]? with
        | some p2 => .ok (organization, project, pyReplace p2 "_git/" "")
        | none => .error .indexError
    | _, _ => .error .indexError
  else if containsL repo_url.data "visualstudio.com".data then
    let parts := pySplitSlash (pyReplace repo_url "https://" "")
    match parts[0]?, parts[1]? with
    | some part0, some project =>
      let organization := pyReplace part0 ".visualstudio.com" ""
      if 3 < parts.length then
        match parts[3]? with
        | some r => .ok (organization, project, r)
        | none => .error .indexError
      else
        match parts[2]? with
        | some p2 => .ok (organization, project, pyReplace p2 "_git/" "")
        | none => .error .indexError
    | _, _ => .error .indexError
  else
    .error .unsupportedFormat

theorem replaceLF_nil (old new : List Char) (fuel : Nat) :
    replaceLF old new fuel [] = [] := by
  cases fuel <;> rfl

/-- Removing a marker that begins with a character absent from `org` strips
exactly the trailing marker. -/
theorem replaceLF_strip_suffix {d : Char} (ms : List Char) :
    ∀ (org : List Char) (fuel : Nat), d ∉ org → (org ++ d :: ms).length ≤ fuel →
      replaceLF (d :: ms) [] fuel (org ++ d :: ms) = org := by
  intro org
  induction org with
  | nil =>
    intro fuel h hf
    cases fuel with
    | zero => simp at hf
    | succ f =>
      have hcond : ((d :: ms).isPrefixOf (d :: ms) && !(d :: ms).isEmpty) = true := by
        simp
      simp [replaceLF, hcond, replaceLF_nil]
  | cons c org' ih =>
    intro fuel h hf
    simp only [List.mem_cons, not_or] at h
    cases fuel with
    | zero => simp at hf
    | succ f =>
      have hcond : ((d :: ms).isPrefixOf (c :: (org' ++ d :: ms)) && !(d :: ms).isEmpty) = false := by
        cases hp : (d :: ms).isPrefixOf (c :: (org' ++ d :: ms))
        · rfl
        · rw [ List.isPrefixOf_iff_prefix, List.cons_prefix_cons] at hp
          exact absurd hp.1 h.1
      have hf' : (org' ++ d :: ms).length ≤ f := by
        simp only [List.cons_append, List.length_cons] at hf
        omega
      simp only [List.cons_append, replaceLF, List.append_eq, hcond,
        Bool.false_eq_true, if_false]
      rw [ih f h.2 hf']

theorem replaceL_strip_suffix {d : Char} {ms org : List Char} (h : d ∉ org) :
    replaceL (d :: ms) [] (org ++ d :: ms) = org :=
  replaceLF_strip_suffix ms org _ h le_rfl

/-! ### Recognized URL shapes (formalizing "matches a provider shape") -/

/-- A component of a recognized repository URL: non-empty and free of the
characters that would disturb the positional parse (`/` separates path
segments and `:` occurs only in the scheme). -/
def cleanComponent (s : String) : Prop :=
  s ≠ "" ∧ '/' ∉ s.data ∧ ':' ∉ s.data

/-- The first recognized provider shape:
`https://dev.azure.com/{organization}/{project}/_git/{repository}`. -/
def matchesAzureShape (repo_url organization project repo_name : String) : Prop :=
  cleanComponent organization ∧ cleanComponent project ∧ cleanComponent repo_name ∧
  repo_url = "https://dev.azure.com/" ++ organization ++ "/" ++ project ++ "/_git/" ++ repo_name

/-- The second recognized provider shape:
`https://{organization}.visualstudio.com/{project}/_git/{repository}`.
The code distinguishes the two shapes purely by host-name substring tests, so
a URL recognized as this shape must not contain the first shape's host marker;
the organization additionally contains no `.` (real organization names are
alphanumeric-with-dashes), since the code recovers it by deleting every
occurrence of `.visualstudio.com` from the first path segment. -/
def matchesVSShape (repo_url organization project repo_name : String) : Prop :=
  cleanComponent organization ∧ cleanComponent project ∧ cleanComponent repo_name ∧
  '.' ∉ organization.data ∧
  containsL repo_url.data "dev.azure.com".data = false ∧
  repo_url = "https://" ++ organization ++ ".visualstudio.com/" ++ project ++ "/_git/" ++ repo_name

/-- A URL matches a recognized provider shape. -/
def matchesEitherShape (repo_url : String) : Prop :=
  (∃ o p r, matchesAzureShape repo_url o p r) ∨ (∃ o p r, matchesVSShape repo_url o p r)

theorem parse_repo_url_azure {url o p r : String} (h : matchesAzureShape url o p r) :
    parse_repo_url url = .ok (o, p, r) := by
  obtain ⟨⟨ho1, ho2, ho3⟩, ⟨hp1, hp2, hp3⟩, ⟨hr1, hr2, hr3⟩, hurl⟩ := h
  subst hurl
  have hdata : ("https://dev.azure.com/" ++ o ++ "/" ++ p ++ "/_git/" ++ r).data
      = "https://dev.azure.com/".data ++
        (o.data ++ '/' :: (p.data ++ '/' :: ("_git".data ++ '/' :: r.data))) := by
    have e2 : "/_git/".data = '/' :: ("_git".data ++ '/' :: []) := rfl
    simp only [String.data_append, e2, List.append_assoc, List.cons_append,
      List.nil_append, List.singleton_append]
  have hc1 : containsL ("https://dev.azure.com/".data ++
      (o.data ++ '/' :: (p.data ++ '/' :: ("_git".data ++ '/' :: r.data))))
      "dev.azure.com".data = true :=
    containsL_append_left _ (by decide)
  have hnotail : containsL
      (o.data ++ '/' :: (p.data ++ '/' :: ("_git".data ++ '/' :: r.data)))
      "https://dev.azure.com/".data = false := by
    apply not_containsL_of_not_mem (c := ':') (by decide)
    simp [ho3, hp3, hr3]
  have hrepl : pyReplace ("https://dev.azure.com/" ++ o ++ "/" ++ p ++ "/_git/" ++ r)
      "https://dev.azure.com/" "" =
      ⟨o.data ++ '/' :: (p.data ++ '/' :: ("_git".data ++ '/' :: r.data))⟩ := by
    unfold pyReplace
    rw [hdata]
    rw [replaceL_append_of_not_containsL (by decide) hnotail]
    rfl
  have hsplit : pySplitSlash
      ⟨o.data ++ '/' :: (p.data ++ '/' :: ("_git".data ++ '/' :: r.data))⟩ =
      [o, p, "_git", r] := by
    show (splitChar '/' (o.data ++ '/' :: (p.data ++ '/' :: ("_git".data ++ '/' :: r.data)))).map String.mk = _
    rw [splitChar_append _ ho2, splitChar_append _ hp2,
      splitChar_append _ (by decide), splitChar_of_not_mem hr2]
    rfl
  simp only [parse_repo_url]
  rw [hdata, hc1, hrepl, hsplit]
  rfl

theorem parse_repo_url_vs {url o p r : String} (h : matchesVSShape url o p r) :
    parse_repo_url url = .ok (o, p, r) := by
  obtain ⟨⟨ho1, ho2, ho3⟩, ⟨hp1, hp2, hp3⟩, ⟨hr1, hr2, hr3⟩, hdot, hnodev, hurl⟩ := h
  subst hurl
  have hdata : ("https://" ++ o ++ ".visualstudio.com/" ++ p ++ "/_git/" ++ r).data
      = "https://".data ++
        ((o.data ++ ".visualstudio.com".data) ++ '/' :: (p.data ++ '/' :: ("_git".data ++ '/' :: r.data))) := by
    have e1 : ".visualstudio.com/".data = ".visualstudio.com".data ++ '/' :: [] := rfl
    have e2 : "/_git/".data = '/' :: ("_git".data ++ '/' :: []) := rfl
    simp only [String.data_append, e1, e2, List.append_assoc, List.cons_append,
      List.nil_append, List.singleton_append]
  have hcvs : containsL ("https://".data ++
      ((o.data ++ ".visualstudio.com".data) ++ '/' :: (p.data ++ '/' :: ("_git".data ++ '/' :: r.data))))
      "visualstudio.com".data = true := by
    apply containsL_append_right
    rw [List.append_assoc]
    apply containsL_append_right
    have hv : (".visualstudio.com".data : List Char) ++ '/' :: (p.data ++ '/' :: ("_git".data ++ '/' :: r.data))
        = '.' :: ("visualstudio.com".data ++ '/' :: (p.data ++ '/' :: ("_git".data ++ '/' :: r.data))) := rfl
    rw [hv]
    simp [containsL, containsL_of_prefix (List.prefix_append _ _)]
  have hnotail : containsL
      ((o.data ++ ".visualstudio.com".data) ++ '/' :: (p.data ++ '/' :: ("_git".data ++ '/' :: r.data)))
      "https://".data = false := by
    apply not_containsL_of_not_mem (c := ':') (by decide)
    simp [ho3, hp3, hr3]
  have hrepl : pyReplace ("https://" ++ o ++ ".visualstudio.com/" ++ p ++ "/_git/" ++ r)
      "https://" "" =
      ⟨(o.data ++ ".visualstudio.com".data) ++ '/' :: (p.data ++ '/' :: ("_git".data ++ '/' :: r.data))⟩ := by
    unfold pyReplace
    rw [hdata]
    rw [replaceL_append_of_not_containsL (by decide) hnotail]
    rfl
  have hslash : '/' ∉ o.data ++ ".visualstudio.com".data := by
    simp [ho2]
  have hsplit : pySplitSlash
      ⟨(o.data ++ ".visualstudio.com".data) ++ '/' :: (p.data ++ '/' :: ("_git".data ++ '/' :: r.data))⟩ =
      [⟨o.data ++ ".visualstudio.com".data⟩, p, "_git", r] := by
    show (splitChar '/' _).map String.mk = _
    rw [splitChar_append _ hslash, splitChar_append _ hp2,
      splitChar_append _ (by decide), splitChar_of_not_mem hr2]
    rfl
  have hstrip : pyReplace ⟨o.data ++ ".visualstudio.com".data⟩ ".visualstudio.com" "" = o := by
    unfold pyReplace
    show String.mk (replaceL ('.' :: "visualstudio.com".data) [] (o.data ++ '.' :: "visualstudio.com".data)) = o
    rw [replaceL_strip_suffix hdot]
  simp only [parse_repo_url]
  rw [hnodev, hdata, hcvs, hrepl, hsplit]
  simp [hstrip]

theorem parse_repo_url_unsupported {url : String}
    (h1 : containsL url.data "dev.azure.com".data = false)
    (h2 : containsL url.data "visualstudio.com".data = false) :
    parse_repo_url url = .error .unsupportedFormat := by
  unfold parse_repo_url
  simp [h1, h2]

instance {ε α : Type} [DecidableEq ε] [DecidableEq α] : DecidableEq (Except ε α) := fun x y =>
  match x, y with
  | .ok a, .ok b =>
    if h : a = b then isTrue (by rw [h]) else isFalse (fun hc => h (Except.ok.inj hc))
  | .ok _, .error _ => isFalse (fun hc => Except.noConfusion hc)
  | .error _, .ok _ => isFalse (fun hc => Except.noConfusion hc)
  | .error e, .error f =>
    if h : e = f then isTrue (by rw [h]) else isFalse (fun hc => h (Except.error.inj hc))

/-- C1 (counterexample): the string `"dev.azure.com"` matches neither
recognized provider shape, yet `parse_repo_url` fails on it with an
`IndexError` (from `parts[1]`), not with the `UnsupportedFormatError` the
claim requires for every non-matching string. -/
theorem C1_url_parser_counterexample :
    ¬ matchesEitherShape "dev.azure.com" ∧
    parse_repo_url "dev.azure.com" = .error PyErr.indexError ∧
    parse_repo_url "dev.azure.com" ≠ .error PyErr.unsupportedFormat := by
  refine ⟨?_, by decide, by decide⟩
  rintro (⟨o, p, r, -, -, -, hurl⟩ | ⟨o, p, r, -, -, -, -, -, hurl⟩)
  · have hd := congrArg String.data hurl
    simp only [String.data_append] at hd
    have hlen := congrArg List.length hd
    simp only [List.length_append] at hlen
    rw [show ("dev.azure.com".data).length = 13 from rfl,
      show ("https://dev.azure.com/".data).length = 22 from rfl] at hlen
    omega
  · have hd := congrArg String.data hurl
    simp only [String.data_append] at hd
    have hlen := congrArg List.length hd
    simp only [List.length_append] at hlen
    rw [show ("dev.azure.com".data).length = 13 from rfl,
      show ("https://".data).length = 8 from rfl,
      show (".visualstudio.com/".data).length = 18 from rfl] at hlen
    omega

/-- C1 (amended): for every URL matching either recognized provider shape,
`parse_repo_url` returns the expected non-empty (organization, project,
repository) triple; for every string containing neither host-name marker it
fails with the `UnsupportedFormatError`.  (Strings that contain a host-name
marker without matching the shape can fail differently — see the
counterexample — so the claim's error guarantee holds only for marker-free
strings.) -/
theorem C1_url_parser_amended :
    (∀ url o p r : String, matchesAzureShape url o p r →
      parse_repo_url url = .ok (o, p, r) ∧ o ≠ "" ∧ p ≠ "" ∧ r ≠ "") ∧
    (∀ url o p r : String, matchesVSShape url o p r →
      parse_repo_url url = .ok (o, p, r) ∧ o ≠ "" ∧ p ≠ "" ∧ r ≠ "") ∧
    (∀ url : String, containsL url.data "dev.azure.com".data = false →
      containsL url.data "visualstudio.com".data = false →
      parse_repo_url url = .error PyErr.unsupportedFormat) := by
  refine ⟨?_, ?_, ?_⟩
  · intro url o p r h
    exact ⟨parse_repo_url_azure h, h.1.1, h.2.1.1, h.2.2.1.1⟩
  · intro url o p r h
    exact ⟨parse_repo_url_vs h, h.1.1, h.2.1.1, h.2.2.1.1⟩
  · intro url h1 h2
    exact parse_repo_url_unsupported h1 h2

/-- C1 (witness): the amended theorem applied to a concrete URL of each
shape and to a concrete marker-free string. -/
theorem C1_url_parser_witness :
    parse_repo_url "https://dev.azure.com/org1/proj1/_git/repo1" =
      .ok ("org1", "proj1", "repo1") ∧
    parse_repo_url "https://contoso.visualstudio.com/proj2/_git/repo2" =
      .ok ("contoso", "proj2", "repo2") ∧
    parse_repo_url "not a url" = .error PyErr.unsupportedFormat :=
  ⟨(C1_url_parser_amended.1 _ "org1" "proj1" "repo1"
      ⟨⟨by decide, by decide, by decide⟩, ⟨by decide, by decide, by decide⟩,
        ⟨by decide, by decide, by decide⟩, by decide⟩).1,
   (C1_url_parser_amended.2.1 _ "contoso" "proj2" "repo2"
      ⟨⟨by decide, by decide, by decide⟩, ⟨by decide, by decide, by decide⟩,
        ⟨by decide, by decide, by decide⟩, by decide, by decide, by decide⟩).1,
   C1_url_parser_amended.2.2 "not a url" (by decide) (by decide)⟩

/-! ### Python `datetime` (the ISO-8601 subset this program feeds it) -/

/-- A Python `datetime` value: calendar fields plus an optional UTC offset in
minutes (`none` models a naive datetime). -/
structure PyDateTime where
  year : Nat
  month : Nat
  day : Nat
  hour : Nat
  minute : Nat
  second : Nat
  offMin : Option Int
deriving DecidableEq, Repr

/-- Numeric value of a decimal digit character. -/
def digitVal (c : Char) : Nat := c.toNat - 48

/-- Two-digit decimal field. -/
def dd (a b : Char) : Nat := digitVal a * 10 + digitVal b

def isLeap (y : Nat) : Bool := (y % 4 == 0 && y % 100 != 0) || y % 400 == 0

def daysInMonth (y m : Nat) : Nat :=
  if m = 2 then (if isLeap y then 29 else 28)
  else if m = 4 ∨ m = 6 ∨ m = 9 ∨ m = 11 then 30
  else 31

/-- The range checks `datetime` performs on its fields. -/
def validDate (y mo d h mi s : Nat) : Bool :=
  1 ≤ y && y ≤ 9999 && 1 ≤ mo && mo ≤ 12 && 1 ≤ d && d ≤ daysInMonth y mo &&
    h ≤ 23 && mi ≤ 59 && s ≤ 59

/-- Trailing UTC-offset designator: empty (naive) or `±HH:MM`. -/
def parseOffset : List Char → Option (Option Int)
  | [] => some none
  | [sign, o1, o2, ':', p1, p2] =>
    if (sign = '+' || sign = '-') && o1.isDigit && o2.isDigit && p1.isDigit && p2.isDigit then
      let hh := dd o1 o2
      let mm := dd p1 p2
      if hh ≤ 23 && mm ≤ 59 then
        some (some ((if sign = '-' then -1 else 1) * (hh * 60 + mm : Nat)))
      else none
    else none
  | _ => none

/-- `datetime.fromisoformat`, restricted to the layouts the provider's
timestamps take after the `'Z' → '+00:00'` rewrite the code performs:
`YYYY-MM-DDTHH:MM:SS` optionally followed by `±HH:MM`.  `none` models the
`ValueError` Python raises on anything else. -/
def fromisoformat (str : String) : Option PyDateTime :=
  match str.data with
  | y1 :: y2 :: y3 :: y4 :: '-' :: m1 :: m2 :: '-' :: d1 :: d2 :: 'T' ::
      h1 :: h2 :: ':' :: n1 :: n2 :: ':' :: s1 :: s2 :: rest =>
    if y1.isDigit && y2.isDigit && y3.isDigit && y4.isDigit && m1.isDigit && m2.isDigit &&
        d1.isDigit && d2.isDigit && h1.isDigit && h2.isDigit && n1.isDigit && n2.isDigit &&
        s1.isDigit && s2.isDigit then
      match parseOffset rest with
      | some off =>
        let y := dd y1 y2 * 100 + dd y3 y4
        let mo := dd m1 m2
        let d := dd d1 d2
        let h := dd h1 h2
        let mi := dd n1 n2
        let s := dd s1 s2
        if validDate y mo d h mi s then some ⟨y, mo, d, h, mi, s, off⟩ else none
      | none => none
    else none
  | _ => none

/-- Days since 0000-03-01 of a civil date (standard civil-from-days inverse);
all intermediate values are non-negative for the valid year range 1..9999. -/
def daysFromCivil (y m d : Nat) : Nat :=
  let y' := if m ≤ 2 then y - 1 else y
  let era := y' / 400
  let yoe := y' - era * 400
  let mp := (m + 9) % 12
  let doy := (153 * mp + 2) / 5 + (d - 1)
  let doe := yoe * 365 + yoe / 4 - yoe / 100 + doy
  era * 146097 + doe

/-- The instant a `datetime` denotes, in seconds on a common axis: Python
orders timezone-aware datetimes by instant.  (Naive datetimes — which Python
orders by fields, i.e. by this value with offset 0 — do not arise from the
provider's `Z`-suffixed timestamps; the ordering claims restrict to aware
values.) -/
def sortVal (dt : PyDateTime) : Int :=
  (daysFromCivil dt.year dt.month dt.day : Int) * 86400 +
    (dt.hour : Int) * 3600 + (dt.minute : Int) * 60 + (dt.second : Int) -
    dt.offMin.getD 0 * 60

/-- Zero-padded two-digit field of `strftime`. -/
def pad2 (n : Nat) : String :=
  if n < 10 then "0" ++ toString n else toString n

/-- Zero-padded four-digit year of `strftime('%Y')`. -/
def pad4 (n : Nat) : String :=
  (if n < 10 then "000" else if n < 100 then "00" else if n < 1000 then "0" else "") ++ toString n

/-- `strftime('%Y-%m-%d')`. -/
def fmtDate (dt : PyDateTime) : String :=
  pad4 dt.year ++ "-" ++ pad2 dt.month ++ "-" ++ pad2 dt.day

/-- `strftime('%H:%M:%S')`. -/
def fmtTime (dt : PyDateTime) : String :=
  pad2 dt.hour ++ ":" ++ pad2 dt.minute ++ ":" ++ pad2 dt.second

/-! ### Commits (as consumed by the aggregator and renderer) -/

/-- The `commit['author']` sub-dictionary, with the fields the pipeline
reads. -/
structure CommitAuthor where
  name : String
  email : String
  date : String
deriving DecidableEq, Repr

/-- A fetched commit as consumed by `organize_commits_by_date_and_repo` and
`generate_pdf`: the raw API fields those functions read plus the identity and
branch fields `fetch_commits` attaches. -/
structure Commit where
  commitId : String
  author : CommitAuthor
  comment : String
  repository : String
  organization : String
  project : String
  branches : List String
deriving DecidableEq, Repr

/-- `datetime.fromisoformat(commit['author']['date'].replace('Z', '+00:00'))`. -/
def commitDT (c : Commit) : Option PyDateTime :=
  fromisoformat (pyReplace c.author.date "Z" "+00:00")

/-- Every commit's author date parses (in the modeled ISO subset) to a
timezone-aware datetime — true of the provider's `Z`-suffixed timestamps.
Python raises on unparseable dates; claims about grouping and rendering
restrict to inputs satisfying this. -/
def wellDatedB (l : List Commit) : Bool :=
  l.all fun c =>
    match commitDT c with
    | some dt => dt.offMin.isSome
    | none => false

/-- The grouping key `date_key = commit_date.strftime('%Y-%m-%d')`.  (Python
raises on an unparseable date; the model totalizes that branch with `""`,
which the `wellDatedB` hypotheses of the theorems make unreachable.) -/
def dateKey (c : Commit) : String :=
  match commitDT c with
  | some dt => fmtDate dt
  | none => ""

/-- The renderer's commit sort key (the parsed author datetime, as an
instant; `0` stands for the unreachable unparseable case). -/
def commitSortVal (c : Commit) : Int :=
  match commitDT c with
  | some dt => sortVal dt
  | none => 0

/-! ### Insertion-ordered dictionaries (Python `dict` / `defaultdict`) -/

/-- `defaultdict` get-or-create at key `k` followed by an update `f` of the
value: existing keys are updated in place, new keys append at the end
(Python dictionaries preserve insertion order). -/
def updD {β : Type} (l : List (String × β)) (k : String) (dflt : β) (f : β → β) :
    List (String × β) :=
  match l with
  | [] => [(k, f dflt)]
  | (k', v) :: rest => if k' = k then (k', f v) :: rest else (k', v) :: updD rest k dflt f

/-- Dictionary lookup. -/
def dictGet {β : Type} (l : List (String × β)) (k : String) : Option β :=
  match l with
  | [] => none
  | (k', v) :: rest => if k' = k then some v else dictGet rest k

/-- The key list, in insertion order (`dict.keys()`). -/
def keysOf {β : Type} (l : List (String × β)) : List String :=
  l.map Prod.fst

/-- The Grouped Report: date → repository → branch → commit list. -/
abbrev Grouped := List (String × List (String × List (String × List Commit)))

/-- One `organized[date_key][repo_name][branch].append(commit)` step. -/
def addCommitToGroup (g : Grouped) (dk rn b : String) (c : Commit) : Grouped :=
  updD g dk [] fun repos =>
    updD repos rn [] fun brs =>
      updD brs b [] fun cs => cs ++ [c]

/-- `organize_commits_by_date_and_repo` (identical in both source files):
each commit is appended to the leaf list of its date key and repository for
every branch in its resolved branch list.  (`commit.get('branches',
['unknown'])` — the branch list is always attached by `fetch_commits`, so the
`['unknown']` default is modeled by the `branches` field itself.) -/
def organize_commits_by_date_and_repo (all_commits : List Commit) : Grouped :=
  all_commits.foldl
    (fun organized c =>
      c.branches.foldl
        (fun org branch => addCommitToGroup org (dateKey c) c.repository branch c)
        organized)
    []

/-- The leaf list of the Grouped Report at a (date, repository, branch)
triple; `[]` when any of the keys is absent. -/
def leafOf (g : Grouped) (dk rn b : String) : List Commit :=
  (dictGet ((dictGet ((dictGet g dk).getD []) rn).getD []) b).getD []

/-! ### Dictionary lemmas -/

theorem dictGet_updD {β : Type} (l : List (String × β)) (ku kq : String) (dflt : β)
    (f : β → β) :
    dictGet (updD l ku dflt f) kq =
      if kq = ku then some (f ((dictGet l ku).getD dflt)) else dictGet l kq := by
  induction l with
  | nil =>
    by_cases h : kq = ku
    · subst h
      simp [updD, dictGet]
    · simp [updD, dictGet, h, Ne.symm h]
  | cons p rest ih =>
    obtain ⟨k₀, v⟩ := p
    by_cases h0 : k₀ = ku
    · subst h0
      by_cases h1 : kq = k₀
      · subst h1
        simp [updD, dictGet]
      · simp [updD, dictGet, h1, Ne.symm h1]
    · by_cases h1 : k₀ = kq
      · have h2 : ¬ kq = ku := fun hh => h0 (h1.trans hh)
        simp [updD, dictGet, h0, h1, h2]
      · simp [updD, dictGet, h0, h1, ih]

theorem keysOf_updD {β : Type} (l : List (String × β)) (ku : String) (dflt : β)
    (f : β → β) :
    keysOf (updD l ku dflt f) =
      if ku ∈ keysOf l then keysOf l else keysOf l ++ [ku] := by
  induction l with
  | nil => simp [updD, keysOf]
  | cons p rest ih =>
    obtain ⟨k₀, v⟩ := p
    by_cases h0 : k₀ = ku
    · subst h0
      simp [updD, keysOf]
    · simp only [updD, if_neg h0, keysOf, List.map_cons]
      simp only [keysOf] at ih
      rw [ih]
      by_cases h1 : ku ∈ List.map Prod.fst rest
      · simp [h1, List.mem_cons]
      · simp [h1, List.mem_cons, Ne.symm h0]

theorem nodup_keysOf_updD {β : Type} {l : List (String × β)} (ku : String) (dflt : β)
    (f : β → β) (h : (keysOf l).Nodup) :
    (keysOf (updD l ku dflt f)).Nodup := by
  rw [keysOf_updD]
  by_cases h1 : ku ∈ keysOf l
  · simpa [h1] using h
  · simp [h1, List.nodup_append, h]

theorem mem_updD {β : Type} {l : List (String × β)} {ku : String} {dflt : β} {f : β → β}
    {q : String × β} (hq : q ∈ updD l ku dflt f) :
    q ∈ l ∨ q.2 = f ((dictGet l ku).getD dflt) := by
  induction l with
  | nil =>
    simp [updD] at hq
    simp [hq, dictGet]
  | cons p rest ih =>
    obtain ⟨k₀, v⟩ := p
    by_cases h0 : k₀ = ku
    · subst h0
      have hq' : q = (k₀, f v) ∨ q ∈ rest := by
        simpa [updD] using hq
      cases hq' with
      | inl heq =>
        right
        simp [heq, dictGet]
      | inr hmem =>
        left
        exact List.mem_cons_of_mem _ hmem
    · have hq' : q = (k₀, v) ∨ q ∈ updD rest ku dflt f := by
        simpa [updD, h0] using hq
      cases hq' with
      | inl heq =>
        left
        simp [heq]
      | inr hmem =>
        cases ih hmem with
        | inl h => exact Or.inl (List.mem_cons_of_mem _ h)
        | inr h =>
          right
          rw [h]
          simp [dictGet, h0]

theorem mem_of_dictGet {β : Type} {l : List (String × β)} {k : String} {v : β}
    (h : dictGet l k = some v) : (k, v) ∈ l := by
  induction l with
  | nil => simp [dictGet] at h
  | cons p rest ih =>
    obtain ⟨k₀, v₀⟩ := p
    by_cases h0 : k₀ = k
    · subst h0
      simp [dictGet] at h
      simp [h]
    · simp [dictGet, h0] at h
      simp [ih h]

theorem dictGet_of_mem_of_nodup {β : Type} {l : List (String × β)} {k : String} {v : β}
    (hn : (keysOf l).Nodup) (h : (k, v) ∈ l) : dictGet l k = some v := by
  induction l with
  | nil => simp at h
  | cons p rest ih =>
    obtain ⟨k₀, v₀⟩ := p
    simp only [keysOf, List.map_cons, List.nodup_cons] at hn
    rcases List.mem_cons.mp h with heq | hmem
    · obtain ⟨e1, e2⟩ := Prod.mk.injEq .. ▸ heq
      simp [dictGet, e1.symm, e2]
    · have hk : k ≠ k₀ := by
        intro he
        subst he
        exact hn.1 (by simpa [keysOf] using List.mem_map_of_mem Prod.fst hmem)
      simp [dictGet, Ne.symm hk, ih hn.2 hmem]

/-! ### Leaf characterization of the aggregator -/

theorem leafOf_nil (d r b : String) : leafOf [] d r b = [] := rfl

theorem leafOf_add (g : Grouped) (dk rn bn d r b : String) (c : Commit) :
    leafOf (addCommitToGroup g dk rn bn c) d r b =
      leafOf g d r b ++ (if d = dk ∧ r = rn ∧ b = bn then [c] else []) := by
  unfold leafOf addCommitToGroup
  rw [dictGet_updD]
  by_cases h1 : d = dk
  · subst h1
    rw [if_pos rfl, Option.getD_some, dictGet_updD]
    by_cases h2 : r = rn
    · subst h2
      rw [if_pos rfl, Option.getD_some, dictGet_updD]
      by_cases h3 : b = bn
      · subst h3
        rw [if_pos rfl, Option.getD_some]
        simp
      · rw [if_neg h3]
        simp [h3]
    · rw [if_neg h2]
      simp [h2]
  · rw [if_neg h1]
    simp [h1]

theorem leafOf_branchFold (g : Grouped) (dk rn : String) (c : Commit) (bs : List String)
    (d r b : String) :
    leafOf (bs.foldl (fun org branch => addCommitToGroup org dk rn branch c) g) d r b =
      leafOf g d r b ++
        (if d = dk ∧ r = rn then List.replicate (bs.count b) c else []) := by
  induction bs generalizing g with
  | nil => simp
  | cons b0 bs ih =>
    rw [List.foldl_cons, ih, leafOf_add]
    by_cases h1 : d = dk ∧ r = rn
    · obtain ⟨e1, e2⟩ := h1
      subst e1
      subst e2
      by_cases h3 : b = b0
      · subst h3
        simp [List.count_cons, List.replicate_succ, List.append_assoc]
      · simp [h3, List.count_cons, List.append_assoc]
    · have h1' : ¬ (d = dk ∧ r = rn ∧ b = b0) := fun hh => h1 ⟨hh.1, hh.2.1⟩
      simp [h1, h1']

theorem leafOf_organize_fold (l : List Commit) (d r b : String) :
    ∀ g : Grouped,
      leafOf (l.foldl
          (fun organized c =>
            c.branches.foldl
              (fun org branch => addCommitToGroup org (dateKey c) c.repository branch c)
              organized)
          g) d r b =
        leafOf g d r b ++
          l.flatMap (fun c =>
            if d = dateKey c ∧ r = c.repository then List.replicate (c.branches.count b) c
            else []) := by
  induction l with
  | nil => simp
  | cons c0 cs ih =>
    intro g
    rw [List.foldl_cons, ih, leafOf_branchFold]
    simp [List.append_assoc]

/-- The fundamental characterization: the leaf list of the aggregated report
at `(d, r, b)` collects, in input order, each input commit with matching date
key and repository once per occurrence of `b` in its branch list. -/
theorem leafOf_organize (l : List Commit) (d r b : String) :
    leafOf (organize_commits_by_date_and_repo l) d r b =
      l.flatMap (fun c =>
        if d = dateKey c ∧ r = c.repository then List.replicate (c.branches.count b) c
        else []) := by
  simpa using leafOf_organize_fold l d r b []

/-! ### Well-formedness of the Grouped Report (Python dict key uniqueness) -/

/-- Distinct keys at every dictionary level, as Python dictionaries
guarantee. -/
def WFG (g : Grouped) : Prop :=
  (keysOf g).Nodup ∧
  (∀ p ∈ g, (keysOf p.2).Nodup) ∧
  (∀ p ∈ g, ∀ q ∈ p.2, (keysOf q.2).Nodup)

theorem WFG_nil : WFG [] :=
  ⟨by simp [keysOf], by simp, by simp⟩

theorem WFG_add {g : Grouped} (dk rn bn : String) (c : Commit) (h : WFG g) :
    WFG (addCommitToGroup g dk rn bn c) := by
  obtain ⟨h1, h2, h3⟩ := h
  have hrepos : (keysOf ((dictGet g dk).getD [])).Nodup := by
    cases hg : dictGet g dk with
    | none => simp [keysOf]
    | some repos => exact h2 _ (mem_of_dictGet hg)
  refine ⟨nodup_keysOf_updD _ _ _ h1, ?_, ?_⟩
  · intro p hp
    rcases mem_updD hp with hmem | heq
    · exact h2 p hmem
    · rw [heq]
      exact nodup_keysOf_updD _ _ _ hrepos
  · intro p hp q hq
    rcases mem_updD hp with hmem | heq
    · exact h3 p hmem q hq
    · rw [heq] at hq
      rcases mem_updD hq with hmem2 | heq2
      · cases hg : dictGet g dk with
        | none =>
          rw [hg] at hmem2
          simp at hmem2
        | some repos =>
          rw [hg] at hmem2
          exact h3 _ (mem_of_dictGet hg) q hmem2
      · rw [heq2]
        apply nodup_keysOf_updD
        cases hg2 : dictGet ((dictGet g dk).getD []) rn with
        | none => simp [keysOf]
        | some brs =>
          cases hg : dictGet g dk with
          | none =>
            rw [hg] at hg2
            simp [dictGet] at hg2
          | some repos =>
            rw [hg] at hg2
            exact h3 _ (mem_of_dictGet hg) _ (mem_of_dictGet hg2)

theorem WFG_branchFold (dk rn : String) (c : Commit) (bs : List String) :
    ∀ g : Grouped, WFG g →
      WFG (bs.foldl (fun org branch => addCommitToGroup org dk rn branch c) g) := by
  induction bs with
  | nil => exact fun g h => h
  | cons b0 bs ih =>
    intro g h
    rw [List.foldl_cons]
    exact ih _ (WFG_add _ _ _ _ h)

theorem WFG_organize (l : List Commit) : WFG (organize_commits_by_date_and_repo l) := by
  have key : ∀ g : Grouped, WFG g →
      WFG (l.foldl
        (fun organized c =>
          c.branches.foldl
            (fun org branch => addCommitToGroup org (dateKey c) c.repository branch c)
            organized)
        g) := by
    induction l with
    | nil => exact fun g h => h
    | cons c0 cs ih =>
      intro g h
      rw [List.foldl_cons]
      exact ih _ (WFG_branchFold _ _ _ _ _ h)
  exact key [] WFG_nil

/-! ### Enumerating the leaf lists of a Grouped Report -/

/-- All leaf lists of the report, each tagged with its (date, repository,
branch) key triple. -/
def flatLeaves (g : Grouped) : List (String × String × String × List Commit) :=
  g.flatMap fun p => p.2.flatMap fun q => q.2.map fun t => (p.1, q.1, t.1, t.2)

/-- The key triples of the leaf lists. -/
def leafKeys (g : Grouped) : List (String × String × String) :=
  (flatLeaves g).map fun t => (t.1, t.2.1, t.2.2.1)

theorem leafOf_of_mem_flatLeaves {g : Grouped} (hw : WFG g) {d r b : String}
    {cs : List Commit} (h : (d, r, b, cs) ∈ flatLeaves g) : leafOf g d r b = cs := by
  obtain ⟨hk, h2, h3⟩ := hw
  simp only [flatLeaves, List.mem_flatMap, List.mem_map] at h
  obtain ⟨p, hp, q, hq, t, ht, heq⟩ := h
  obtain ⟨e1, e2, e3, e4⟩ : p.1 = d ∧ q.1 = r ∧ t.1 = b ∧ t.2 = cs := by
    simpa [Prod.ext_iff] using heq
  unfold leafOf
  have g1 : dictGet g d = some p.2 := by
    rw [← e1]
    exact dictGet_of_mem_of_nodup hk (by simpa using hp)
  have g2 : dictGet p.2 r = some q.2 := by
    rw [← e2]
    exact dictGet_of_mem_of_nodup (h2 p hp) (by simpa using hq)
  have g3 : dictGet q.2 b = some t.2 := by
    rw [← e3]
    exact dictGet_of_mem_of_nodup (h3 p hp q hq) (by simpa using ht)
  rw [g1, Option.getD_some, g2, Option.getD_some, g3, Option.getD_some, e4]

theorem mem_flatLeaves_of_leafOf {g : Grouped} {d r b : String}
    (h : leafOf g d r b ≠ []) : (d, r, b, leafOf g d r b) ∈ flatLeaves g := by
  unfold leafOf at h ⊢
  cases hg : dictGet g d with
  | none =>
    rw [hg] at h
    simp [dictGet] at h
  | some repos =>
    rw [hg] at h
    simp only [Option.getD_some] at h ⊢
    cases hg2 : dictGet repos r with
    | none =>
      rw [hg2] at h
      simp [dictGet] at h
    | some brs =>
      rw [hg2] at h
      simp only [Option.getD_some] at h ⊢
      cases hg3 : dictGet brs b with
      | none =>
        rw [hg3] at h
        simp at h
      | some cs =>
        rw [hg3] at h
        simp only [Option.getD_some] at h ⊢
        simp only [flatLeaves, List.mem_flatMap, List.mem_map]
        exact ⟨(d, repos), mem_of_dictGet hg,
          (r, brs), mem_of_dictGet hg2, (b, cs), mem_of_dictGet hg3, rfl⟩

theorem leafKeys_nodup {g : Grouped} (hw : WFG g) : (leafKeys g).Nodup := by
  obtain ⟨h1, h2, h3⟩ := hw
  unfold leafKeys flatLeaves
  rw [List.map_flatMap, List.nodup_flatMap]
  constructor
  · intro p hp
    rw [List.map_flatMap, List.nodup_flatMap]
    constructor
    · intro q hq
      rw [List.map_map]
      have : ((fun t : String × String × String × List Commit => (t.1, t.2.1, t.2.2.1)) ∘
          fun t : String × List Commit => (p.1, q.1, t.1, t.2)) =
          fun t : String × List Commit => (p.1, q.1, t.1) := rfl
      rw [this]
      have hinj : Function.Injective fun k : String => (p.1, q.1, k) := by
        intro a b hab
        simpa [Prod.ext_iff] using hab
      have : (fun t : String × List Commit => (p.1, q.1, t.1)) =
          (fun k : String => (p.1, q.1, k)) ∘ Prod.fst := rfl
      rw [this, ← List.map_map]
      exact (h3 p hp q hq).map hinj
    · have hpw : List.Pairwise (fun q q' : String × List (String × List Commit) =>
          q.1 ≠ q'.1) p.2 := by
        simpa [keysOf, List.Nodup, List.pairwise_map] using h2 p hp
      refine hpw.imp ?_
      intro q q' hne x hx hx'
      simp only [List.map_map, List.mem_map, Function.comp] at hx hx'
      obtain ⟨t, ht, rfl⟩ := hx
      obtain ⟨t', ht', heq⟩ := hx'
      have hc : q'.1 = q.1 := by
        have he := heq
        simp only [Prod.ext_iff] at he
        exact he.2.1
      exact hne hc.symm
  · have hpw : List.Pairwise (fun p p' : String × List (String × List (String × List Commit)) =>
        p.1 ≠ p'.1) g := by
      simpa [keysOf, List.Nodup, List.pairwise_map] using h1
    refine hpw.imp ?_
    intro p p' hne x hx hx'
    simp only [List.map_flatMap, List.mem_flatMap, List.map_map, List.mem_map,
      Function.comp] at hx hx'
    obtain ⟨q, hq, t, ht, rfl⟩ := hx
    obtain ⟨q', hq', t', ht', heq⟩ := hx'
    have hc : p'.1 = p.1 := by
      have he := heq
      simp only [Prod.ext_iff] at he
      exact he.1
    exact hne hc.symm

/-- Membership in a leaf of the aggregated report: a commit sits in the leaf
at `(d, r, b)` exactly when it is an input commit whose date key and
repository are the leaf's keys and whose branch list contains `b`. -/
theorem mem_leafOf_organize {l : List Commit} {c : Commit} {d r b : String} :
    c ∈ leafOf (organize_commits_by_date_and_repo l) d r b ↔
      c ∈ l ∧ d = dateKey c ∧ r = c.repository ∧ b ∈ c.branches := by
  rw [leafOf_organize]
  simp only [List.mem_flatMap]
  constructor
  · rintro ⟨c', hc', hmem⟩
    by_cases hcond : d = dateKey c' ∧ r = c'.repository
    · rw [if_pos hcond] at hmem
      have heqc : c = c' := List.eq_of_mem_replicate hmem
      subst heqc
      refine ⟨hc', hcond.1, hcond.2, ?_⟩
      obtain ⟨hne, -⟩ := List.mem_replicate.mp hmem
      exact List.count_pos_iff.mp (Nat.pos_of_ne_zero hne)
    · rw [if_neg hcond] at hmem
      simp at hmem
  · rintro ⟨hc, h1, h2, h3⟩
    refine ⟨c, hc, ?_⟩
    rw [if_pos ⟨h1, h2⟩]
    refine List.mem_replicate.mpr ⟨?_, rfl⟩
    have := List.count_pos_iff.mpr h3
    omega

/-! ### The renderer's summary total -/

/-- The summary's `total_commits`: the sum of the lengths of every leaf list
of the Grouped Report (each branch-membership occurrence counts once). -/
def total_commits (g : Grouped) : Nat :=
  (g.map fun p => (p.2.map fun q => (q.2.map fun t => t.2.length).sum).sum).sum

theorem sum_updD_absent {β : Type} {l : List (String × β)} {ku : String} {dflt : β}
    {f : β → β} (m : String × β → Nat) (h : dictGet l ku = none) :
    ((updD l ku dflt f).map m).sum = (l.map m).sum + m (ku, f dflt) := by
  induction l with
  | nil => simp [updD]
  | cons p rest ih =>
    obtain ⟨k₀, v⟩ := p
    by_cases h0 : k₀ = ku
    · subst h0
      simp [dictGet] at h
    · simp only [dictGet, if_neg h0] at h
      simp only [updD, if_neg h0, List.map_cons, List.sum_cons, ih h]
      omega

theorem sum_updD_present {β : Type} {l : List (String × β)} {ku : String} {dflt : β}
    {f : β → β} (m : String × β → Nat) {v : β} (h : dictGet l ku = some v) :
    ((updD l ku dflt f).map m).sum + m (ku, v) = (l.map m).sum + m (ku, f v) := by
  induction l with
  | nil => simp [dictGet] at h
  | cons p rest ih =>
    obtain ⟨k₀, v₀⟩ := p
    by_cases h0 : k₀ = ku
    · subst h0
      simp [dictGet] at h
      subst h
      simp [updD]
      omega
    · simp only [dictGet, if_neg h0] at h
      simp only [updD, if_neg h0, List.map_cons, List.sum_cons]
      have := ih h
      omega

theorem sum_updD_incr {β : Type} {l : List (String × β)} {ku : String} {dflt : β}
    {f : β → β} (m : String × β → Nat) (hf : ∀ v, m (ku, f v) = m (ku, v) + 1)
    (hd : m (ku, dflt) = 0) :
    ((updD l ku dflt f).map m).sum = (l.map m).sum + 1 := by
  cases h : dictGet l ku with
  | none =>
    rw [sum_updD_absent m h, hf, hd]
  | some v =>
    have := @sum_updD_present β l ku dflt f m v h
    rw [hf] at this
    omega

theorem total_commits_add (g : Grouped) (dk rn bn : String) (c : Commit) :
    total_commits (addCommitToGroup g dk rn bn c) = total_commits g + 1 := by
  unfold total_commits addCommitToGroup
  rw [sum_updD_incr]
  · intro repos
    show (List.map _ (updD repos rn [] _)).sum = _
    rw [sum_updD_incr]
    · intro brs
      show (List.map _ (updD brs bn [] _)).sum = _
      rw [sum_updD_incr]
      · intro cs
        simp
      · rfl
    · rfl
  · rfl

theorem total_commits_branchFold (dk rn : String) (c : Commit) (bs : List String) :
    ∀ g : Grouped,
      total_commits (bs.foldl (fun org branch => addCommitToGroup org dk rn branch c) g) =
        total_commits g + bs.length := by
  induction bs with
  | nil => simp
  | cons b0 bs ih =>
    intro g
    rw [List.foldl_cons, ih, total_commits_add]
    simp
    omega

/-- The summary total of the aggregated report is the sum, over the input
commits, of the size of each commit's branch list: a commit contained in N
branches is counted N times. -/
theorem total_commits_organize (l : List Commit) :
    total_commits (organize_commits_by_date_and_repo l) =
      (l.map fun c => c.branches.length).sum := by
  have key : ∀ g : Grouped,
      total_commits (l.foldl
        (fun organized c =>
          c.branches.foldl
            (fun org branch => addCommitToGroup org (dateKey c) c.repository branch c)
            organized)
        g) = total_commits g + (l.map fun c => c.branches.length).sum := by
    induction l with
    | nil => simp
    | cons c0 cs ih =>
      intro g
      rw [List.foldl_cons, ih, total_commits_branchFold]
      simp
      omega
  simpa [total_commits] using key []

/-- Under the Nodup branch lists the resolver produces, the number of leaf
lists of the aggregated report containing a given input commit is exactly the
size of its branch list. -/
theorem count_leafLists_organize {l : List Commit} {c : Commit} (hc : c ∈ l)
    (hnd : c.branches.Nodup) :
    ((flatLeaves (organize_commits_by_date_and_repo l)).filter
        fun t => decide (c ∈ t.2.2.2)).length = c.branches.length := by
  have hw := WFG_organize l
  have hsub : (((flatLeaves (organize_commits_by_date_and_repo l)).filter
      fun t => decide (c ∈ t.2.2.2)).map fun t => (t.1, t.2.1, t.2.2.1)).Sublist
      (leafKeys (organize_commits_by_date_and_repo l)) :=
    (List.filter_sublist _).map _
  have hnd1 : (((flatLeaves (organize_commits_by_date_and_repo l)).filter
      fun t => decide (c ∈ t.2.2.2)).map fun t => (t.1, t.2.1, t.2.2.1)).Nodup :=
    hsub.nodup (leafKeys_nodup hw)
  have hinj : Function.Injective fun b : String => (dateKey c, c.repository, b) := by
    intro a b hab
    simpa [Prod.ext_iff] using hab
  have hnd2 : (c.branches.map fun b => (dateKey c, c.repository, b)).Nodup :=
    hnd.map hinj
  have hiff : ∀ x,
      x ∈ (((flatLeaves (organize_commits_by_date_and_repo l)).filter
        fun t => decide (c ∈ t.2.2.2)).map fun t => (t.1, t.2.1, t.2.2.1)) ↔
      x ∈ c.branches.map fun b => (dateKey c, c.repository, b) := by
    intro x
    constructor
    · intro hx
      simp only [List.mem_map, List.mem_filter, decide_eq_true_eq] at hx
      obtain ⟨t, ⟨htf, htc⟩, rfl⟩ := hx
      obtain ⟨d, r, b, cs⟩ := t
      have hleaf : leafOf (organize_commits_by_date_and_repo l) d r b = cs :=
        leafOf_of_mem_flatLeaves hw htf
      have hmem : c ∈ leafOf (organize_commits_by_date_and_repo l) d r b := by
        rw [hleaf]
        exact htc
      obtain ⟨-, h1, h2, h3⟩ := mem_leafOf_organize.mp hmem
      simp only [List.mem_map]
      exact ⟨b, h3, by simp [h1, h2]⟩
    · intro hx
      simp only [List.mem_map] at hx
      obtain ⟨b, hb, rfl⟩ := hx
      have hmem : c ∈ leafOf (organize_commits_by_date_and_repo l) (dateKey c)
          c.repository b :=
        mem_leafOf_organize.mpr ⟨hc, rfl, rfl, hb⟩
      have hne : leafOf (organize_commits_by_date_and_repo l) (dateKey c)
          c.repository b ≠ [] := by
        intro hnil
        rw [hnil] at hmem
        simp at hmem
      have hfl := mem_flatLeaves_of_leafOf hne
      simp only [List.mem_map, List.mem_filter, decide_eq_true_eq]
      exact ⟨(dateKey c, c.repository, b,
        leafOf (organize_commits_by_date_and_repo l) (dateKey c) c.repository b),
        ⟨hfl, hmem⟩, rfl⟩
  have hperm := (List.perm_ext_iff_of_nodup hnd1 hnd2).mpr hiff
  have hlen := hperm.length_eq
  simpa using hlen

/-! ### Key membership of the aggregated report -/

theorem mem_keysOf_updD {β : Type} {l : List (String × β)} {ku k' : String}
    {dflt : β} {f : β → β} :
    k' ∈ keysOf (updD l ku dflt f) ↔ k' ∈ keysOf l ∨ k' = ku := by
  rw [keysOf_updD]
  by_cases h : ku ∈ keysOf l
  · rw [if_pos h]
    constructor
    · exact Or.inl
    · rintro (hk | rfl)
      · exact hk
      · exact h
  · rw [if_neg h]
    simp [List.mem_append]

theorem mem_keysOf_branchFold {dk rn : String} {c : Commit} {bs : List String}
    {d : String} :
    ∀ g : Grouped,
      (d ∈ keysOf (bs.foldl (fun org branch => addCommitToGroup org dk rn branch c) g) ↔
        d ∈ keysOf g ∨ (bs ≠ [] ∧ d = dk)) := by
  induction bs with
  | nil => simp
  | cons b0 bs ih =>
    intro g
    rw [List.foldl_cons, ih]
    unfold addCommitToGroup
    rw [mem_keysOf_updD]
    constructor
    · rintro ((hk | rfl) | ⟨-, rfl⟩)
      · exact Or.inl hk
      · exact Or.inr ⟨by simp, rfl⟩
      · exact Or.inr ⟨by simp, rfl⟩
    · rintro (hk | ⟨-, rfl⟩)
      · exact Or.inl (Or.inl hk)
      · exact Or.inl (Or.inr rfl)

theorem mem_keysOf_organize {l : List Commit} {d : String} :
    d ∈ keysOf (organize_commits_by_date_and_repo l) ↔
      ∃ c ∈ l, d = dateKey c ∧ c.branches ≠ [] := by
  have key : ∀ g : Grouped,
      (d ∈ keysOf (l.foldl
        (fun organized c =>
          c.branches.foldl
            (fun org branch => addCommitToGroup org (dateKey c) c.repository branch c)
            organized)
        g) ↔ d ∈ keysOf g ∨ ∃ c ∈ l, d = dateKey c ∧ c.branches ≠ []) := by
    induction l with
    | nil => simp
    | cons c0 cs ih =>
      intro g
      rw [List.foldl_cons, ih, mem_keysOf_branchFold]
      constructor
      · rintro ((hk | ⟨hb, rfl⟩) | ⟨c, hcm, rfl, hb⟩)
        · exact Or.inl hk
        · exact Or.inr ⟨c0, by simp, rfl, hb⟩
        · exact Or.inr ⟨c, by simp [hcm], rfl, hb⟩
      · rintro (hk | ⟨c, hcm, rfl, hb⟩)
        · exact Or.inl (Or.inl hk)
        · rcases List.mem_cons.mp hcm with rfl | hcm'
          · exact Or.inl (Or.inr ⟨hb, rfl⟩)
          · exact Or.inr ⟨c, hcm', rfl, hb⟩
  have := key []
  simp only [keysOf, List.map_nil, List.not_mem_nil, false_or] at this
  exact this

/-! ### Sample data for concrete witnesses -/

/-- Sample commit: two resolved branches, dated 2024-01-02 10:00 UTC. -/
def sampleCommit1 : Commit :=
  ⟨"1111aaaa2222bbbb", ⟨"Alice", "Alice@Example.com", "2024-01-02T10:00:00Z"⟩,
    "Fix bug", "repoA", "org1", "proj1", ["dev", "main"]⟩

/-- Sample commit: one resolved branch, dated 2024-01-01 23:00 UTC. -/
def sampleCommit2 : Commit :=
  ⟨"3333cccc4444dddd", ⟨"Bob", "bob@example.com", "2024-01-01T23:00:00Z"⟩,
    "Add feature", "repoA", "org1", "proj1", ["main"]⟩

/-- C2: a commit whose resolved branch list has N entries is a member of
exactly N leaf lists of the Grouped Report — one per branch name, all under
its date key and repository key — and the renderer's summary total (the sum
of all leaf-list lengths) counts each branch-membership occurrence
separately, totalling the sum of branch-list sizes over the input. -/
theorem C2_fanout_and_total (l : List Commit) (c : Commit) (hc : c ∈ l)
    (hnd : c.branches.Nodup) :
    (∀ d r b : String,
      c ∈ leafOf (organize_commits_by_date_and_repo l) d r b ↔
        d = dateKey c ∧ r = c.repository ∧ b ∈ c.branches) ∧
    ((flatLeaves (organize_commits_by_date_and_repo l)).filter
        fun t => decide (c ∈ t.2.2.2)).length = c.branches.length ∧
    total_commits (organize_commits_by_date_and_repo l) =
      (l.map fun c' => c'.branches.length).sum := by
  refine ⟨?_, count_leafLists_organize hc hnd, total_commits_organize l⟩
  intro d r b
  rw [mem_leafOf_organize]
  constructor
  · rintro ⟨-, h⟩
    exact h
  · intro h
    exact ⟨hc, h⟩

/-- C2 (witness): the claim applied to a concrete two-commit input; the
two-branch commit sits in exactly two leaf lists and the total is 3. -/
theorem C2_fanout_and_total_witness :
    ((∀ d r b : String,
      sampleCommit1 ∈ leafOf
        (organize_commits_by_date_and_repo [sampleCommit1, sampleCommit2]) d r b ↔
        d = dateKey sampleCommit1 ∧ r = sampleCommit1.repository ∧
          b ∈ sampleCommit1.branches) ∧
    ((flatLeaves (organize_commits_by_date_and_repo [sampleCommit1, sampleCommit2])).filter
        fun t => decide (sampleCommit1 ∈ t.2.2.2)).length =
      sampleCommit1.branches.length ∧
    total_commits (organize_commits_by_date_and_repo [sampleCommit1, sampleCommit2]) =
      ([sampleCommit1, sampleCommit2].map fun c' => c'.branches.length).sum) ∧
    total_commits (organize_commits_by_date_and_repo [sampleCommit1, sampleCommit2]) = 3 :=
  ⟨C2_fanout_and_total [sampleCommit1, sampleCommit2] sampleCommit1
      (by decide) (by decide),
    by decide⟩

/-- C6: the aggregator is input-order independent — permuting the input
commit list leaves every leaf list of the Grouped Report unchanged up to
permutation (multiset comparison), and leaves the set of date keys
unchanged. -/
theorem C6_organize_order_independent (l₁ l₂ : List Commit) (hp : l₁.Perm l₂) :
    (∀ d r b : String,
      (leafOf (organize_commits_by_date_and_repo l₁) d r b).Perm
        (leafOf (organize_commits_by_date_and_repo l₂) d r b)) ∧
    (∀ d : String,
      d ∈ keysOf (organize_commits_by_date_and_repo l₁) ↔
        d ∈ keysOf (organize_commits_by_date_and_repo l₂)) := by
  constructor
  · intro d r b
    rw [leafOf_organize, leafOf_organize]
    exact hp.flatMap_right _
  · intro d
    rw [mem_keysOf_organize, mem_keysOf_organize]
    constructor
    · rintro ⟨c, hcm, h⟩
      exact ⟨c, hp.mem_iff.mp hcm, h⟩
    · rintro ⟨c, hcm, h⟩
      exact ⟨c, hp.mem_iff.mpr hcm, h⟩

/-- C6 (witness): the claim applied to a concrete list and its reversal. -/
theorem C6_organize_order_independent_witness :
    (∀ d r b : String,
      (leafOf (organize_commits_by_date_and_repo [sampleCommit1, sampleCommit2]) d r b).Perm
        (leafOf (organize_commits_by_date_and_repo [sampleCommit2, sampleCommit1]) d r b)) ∧
    (∀ d : String,
      d ∈ keysOf (organize_commits_by_date_and_repo [sampleCommit1, sampleCommit2]) ↔
        d ∈ keysOf (organize_commits_by_date_and_repo [sampleCommit2, sampleCommit1])) :=
  C6_organize_order_independent [sampleCommit1, sampleCommit2]
    [sampleCommit2, sampleCommit1] (by decide)

/-! ### Python `sorted` (a stable sort) -/

/-- Insert `a` before the first element `b` of an already-sorted list with
`le a b`. -/
def insertSorted {α : Type} (le : α → α → Bool) (a : α) : List α → List α
  | [] => [a]
  | b :: l => if le a b then a :: b :: l else b :: insertSorted le a l

/-- Python `sorted(l, key=..., reverse=...)` as a stable sort by a boolean
total preorder (insertion sort: a stable sort's output is determined by the
relation, so this coincides with Python's Timsort). -/
def pySorted {α : Type} (le : α → α → Bool) : List α → List α
  | [] => []
  | a :: l => insertSorted le a (pySorted le l)

theorem insertSorted_perm {α : Type} (le : α → α → Bool) (a : α) (l : List α) :
    (insertSorted le a l).Perm (a :: l) := by
  induction l with
  | nil => simp [insertSorted]
  | cons b l ih =>
    by_cases h : le a b
    · simp [insertSorted, h]
    · rw [show insertSorted le a (b :: l) = b :: insertSorted le a l by
        simp [insertSorted, h]]
      exact (ih.cons b).trans (List.Perm.swap a b l)

theorem pySorted_perm {α : Type} (le : α → α → Bool) (l : List α) :
    (pySorted le l).Perm l := by
  induction l with
  | nil => simp [pySorted]
  | cons a l ih =>
    exact (insertSorted_perm le a (pySorted le l)).trans (ih.cons a)

theorem mem_insertSorted {α : Type} {le : α → α → Bool} {a x : α} {l : List α} :
    x ∈ insertSorted le a l ↔ x = a ∨ x ∈ l := by
  rw [(insertSorted_perm le a l).mem_iff]
  simp

theorem insertSorted_pairwise {α : Type} {le : α → α → Bool}
    (total : ∀ x y, le x y || le y x)
    (trans : ∀ x y z, le x y = true → le y z = true → le x z = true)
    {l : List α} (h : l.Pairwise (fun x y => le x y = true)) (a : α) :
    (insertSorted le a l).Pairwise (fun x y => le x y = true) := by
  induction l with
  | nil => simp [insertSorted]
  | cons b l ih =>
    rw [List.pairwise_cons] at h
    obtain ⟨h1, h2⟩ := h
    by_cases hab : le a b
    · rw [show insertSorted le a (b :: l) = a :: b :: l by simp [insertSorted, hab]]
      rw [List.pairwise_cons]
      refine ⟨?_, List.pairwise_cons.mpr ⟨h1, h2⟩⟩
      intro y hy
      rcases List.mem_cons.mp hy with rfl | hy'
      · exact hab
      · exact trans a b y hab (h1 y hy')
    · rw [show insertSorted le a (b :: l) = b :: insertSorted le a l by
        simp [insertSorted, hab]]
      rw [List.pairwise_cons]
      refine ⟨?_, ih h2⟩
      intro y hy
      rcases mem_insertSorted.mp hy with heq | hy'
      · rw [heq]
        have := total a b
        simp [hab] at this
        exact this
      · exact h1 y hy'

theorem pySorted_pairwise {α : Type} {le : α → α → Bool}
    (total : ∀ x y, le x y || le y x)
    (trans : ∀ x y z, le x y = true → le y z = true → le x z = true)
    (l : List α) : (pySorted le l).Pairwise (fun x y => le x y = true) := by
  induction l with
  | nil => simp [pySorted]
  | cons a l ih => exact insertSorted_pairwise total trans ih a

theorem pySorted_nodup {α : Type} {le : α → α → Bool} {l : List α}
    (h : l.Nodup) : (pySorted le l).Nodup :=
  (pySorted_perm le l).nodup_iff.mpr h

/-! ### String order totality and transitivity -/

theorem strLeL_total : ∀ a b : List Char, strLeL a b || strLeL b a := by
  intro a
  induction a with
  | nil =>
    intro b
    simp [strLeL]
  | cons x xs ih =>
    intro b
    cases b with
    | nil => simp [strLeL]
    | cons y ys =>
      by_cases hxy : x = y
      · subst hxy
        simpa [strLeL] using ih ys
      · rcases lt_trichotomy x y with h | h | h
        · simp [strLeL, hxy, h]
        · exact absurd h hxy
        · simp [strLeL, hxy, Ne.symm hxy, h]

theorem strLeL_trans :
    ∀ a b c : List Char, strLeL a b = true → strLeL b c = true → strLeL a c = true := by
  intro a
  induction a with
  | nil =>
    intro b c _ _
    simp [strLeL]
  | cons x xs ih =>
    intro b c hab hbc
    cases b with
    | nil => simp [strLeL] at hab
    | cons y ys =>
      cases c with
      | nil => simp [strLeL] at hbc
      | cons z zs =>
        by_cases hxy : x = y
        · subst hxy
          by_cases hyz : x = z
          · subst hyz
            simp only [strLeL, if_pos rfl] at hab hbc ⊢
            exact ih _ _ hab hbc
          · simp only [strLeL, if_neg hyz] at hbc ⊢
            exact hbc
        · by_cases hyz : y = z
          · subst hyz
            simp only [strLeL, if_neg hxy] at hab ⊢
            exact hab
          · simp only [strLeL, if_neg hxy, if_neg hyz, decide_eq_true_eq] at hab hbc
            have hxz : x < z := lt_trans hab hbc
            simp [strLeL, ne_of_lt hxz, hxz]

theorem pyStrLe_total (a b : String) : pyStrLe a b || pyStrLe b a :=
  strLeL_total a.data b.data

theorem pyStrLe_trans {a b c : String} (h1 : pyStrLe a b = true)
    (h2 : pyStrLe b c = true) : pyStrLe a c = true :=
  strLeL_trans a.data b.data c.data h1 h2

/-! ### The report renderer (`generate_pdf`) -/

/-- Lexicographic `<` on character lists: Python's strict string comparison. -/
def strLtL : List Char → List Char → Bool
  | [], [] => false
  | [], _ :: _ => true
  | _ :: _, [] => false
  | a :: as, b :: bs => if a = b then strLtL as bs else decide (a < b)

/-- Python's `s < t` on strings. -/
def pyStrLt (a b : String) : Bool :=
  strLtL a.data b.data

/-- Python `min()` over a non-empty iterable of strings. -/
def pyMin : List String → Option String
  | [] => none
  | k :: rest => some (rest.foldl (fun m x => if pyStrLt x m then x else m) k)

/-- Python `max()` over a non-empty iterable of strings. -/
def pyMax : List String → Option String
  | [] => none
  | k :: rest => some (rest.foldl (fun m x => if pyStrLt m x then x else m) k)

/-- The summary's `Date Range` cell. -/
def dateRangeStr (g : Grouped) : String :=
  if g.isEmpty then "No commits"
  else
    match pyMin (keysOf g), pyMax (keysOf g) with
    | some mn, some mx => mn ++ " to " ++ mx
    | _, _ => "No commits"

/-- The summary's `Repositories` cell: the number of distinct repository
names over all date sections (`len(set(...))`). -/
def repoCountOf (g : Grouped) : Nat :=
  ((g.flatMap fun p => keysOf p.2).dedup).length

/-- The traversal order of `generate_pdf`: `sorted(keys, reverse=True)` over
dates, `sorted(keys)` over repositories and branches, and within each branch
`sorted(commits, key=parsed author datetime, reverse=True)`. -/
def renderHierarchy (g : Grouped) :
    List (String × List (String × List (String × List Commit))) :=
  (pySorted (fun a b => pyStrLe b a) (keysOf g)).map fun date =>
    (date,
      (pySorted pyStrLe (keysOf ((dictGet g date).getD []))).map fun rn =>
        (rn,
          (pySorted pyStrLe
              (keysOf ((dictGet ((dictGet g date).getD []) rn).getD []))).map fun bn =>
            (bn,
              pySorted (fun c₁ c₂ => decide (commitSortVal c₂ ≤ commitSortVal c₁))
                ((dictGet ((dictGet ((dictGet g date).getD []) rn).getD []) bn).getD []))))

/-- The commit-message normalization and truncation per commit line:
`message = commit['comment'].strip().replace('\n', ' ')[:100]`, then
`"..."` is appended when `len(commit['comment'].strip()) > 100`. -/
def renderMessage (comment : String) : String :=
  (⟨(replaceL ['\n'] [' '] (pyStripL comment.data)).take 100⟩ : String) ++
    (if 100 < (pyStripL comment.data).length then "..." else "")

/-- The elements `generate_pdf` appends to the document story, stripped of
pure layout (styles, spacers, fonts, page breaks), which the spec treats as
external rendering mechanics. -/
inductive Item where
  | title (text : String)
  | generatedOn
  | filterNote (author : String)
  | summaryBlock (total : Nat) (dateRange : String) (repoCount : Nat)
  | dateHeader (date : String)
  | repoHeader (repo : String)
  | branchHeader (branch : String) (commitCount : Nat)
  | commitLine (time message authorName authorEmail shortId : String)
deriving DecidableEq, Repr

/-- One commit entry of the report: time-of-day, normalized/truncated
message, author name and email, first 8 characters of the commit id. -/
def renderCommitLine (c : Commit) : Item :=
  Item.commitLine
    (match commitDT c with
      | some dt => fmtTime dt
      | none => "")
    (renderMessage c.comment)
    c.author.name
    c.author.email
    ⟨c.commitId.data.take 8⟩

/-- `generate_pdf` (git_rep_gen.py) as the sequence of content elements it
emits: title, generation stamp, optional author-filter note, summary table,
then the date/repository/branch/commit hierarchy in `renderHierarchy`
order. -/
def generate_pdf (g : Grouped) (author_filter : Option String) : List Item :=
  [Item.title "Azure DevOps Commits Report", Item.generatedOn] ++
  (match author_filter with
    | some f => if f = "" then [] else [Item.filterNote f]
    | none => []) ++
  [Item.summaryBlock (total_commits g) (dateRangeStr g) (repoCountOf g)] ++
  (renderHierarchy g).flatMap fun p =>
    Item.dateHeader p.1 ::
      p.2.flatMap fun q =>
        Item.repoHeader q.1 ::
          q.2.flatMap fun t =>
            Item.branchHeader t.1 t.2.length :: t.2.map renderCommitLine

theorem pySorted_asc_strict {ks : List String} (h : ks.Nodup) :
    (pySorted pyStrLe ks).Pairwise (fun a b => pyStrLe a b = true ∧ a ≠ b) :=
  (pySorted_pairwise pyStrLe_total (fun _ _ _ hxy hyz => pyStrLe_trans hxy hyz) ks).and
    (pySorted_nodup h)

theorem pySorted_desc_strict {ks : List String} (h : ks.Nodup) :
    (pySorted (fun a b => pyStrLe b a) ks).Pairwise
      (fun a b => pyStrLe b a = true ∧ a ≠ b) :=
  (pySorted_pairwise (fun x y => pyStrLe_total y x)
    (fun _ _ _ hxy hyz => pyStrLe_trans hyz hxy) ks).and (pySorted_nodup h)

theorem commitLe_total (c₁ c₂ : Commit) :
    (decide (commitSortVal c₂ ≤ commitSortVal c₁) ||
      decide (commitSortVal c₁ ≤ commitSortVal c₂)) := by
  rcases le_total (commitSortVal c₂) (commitSortVal c₁) with h | h <;> simp [h]

theorem commitLe_trans (x y z : Commit)
    (h1 : decide (commitSortVal y ≤ commitSortVal x) = true)
    (h2 : decide (commitSortVal z ≤ commitSortVal y) = true) :
    decide (commitSortVal z ≤ commitSortVal x) = true := by
  simp only [decide_eq_true_eq] at h1 h2 ⊢
  exact le_trans h2 h1

/-- C3: the renderer's traversal order — date sections in strictly descending
key order (most recent `%Y-%m-%d` key first; on these fixed-width keys
lexicographic order is chronological order), repositories in strictly
ascending lexicographic order within a date, branches in strictly ascending
lexicographic order within a repository, and within a branch the commit
entries in descending order of parsed author timestamp. -/
theorem C3_renderer_ordering (g : Grouped)
    (h1 : (keysOf g).Nodup)
    (h2 : ∀ p ∈ g, (keysOf p.2).Nodup)
    (h3 : ∀ p ∈ g, ∀ q ∈ p.2, (keysOf q.2).Nodup) :
    ((renderHierarchy g).map Prod.fst).Pairwise
      (fun a b => pyStrLe b a = true ∧ a ≠ b) ∧
    (∀ p ∈ renderHierarchy g,
      (p.2.map Prod.fst).Pairwise (fun a b => pyStrLe a b = true ∧ a ≠ b)) ∧
    (∀ p ∈ renderHierarchy g, ∀ q ∈ p.2,
      (q.2.map Prod.fst).Pairwise (fun a b => pyStrLe a b = true ∧ a ≠ b)) ∧
    (∀ p ∈ renderHierarchy g, ∀ q ∈ p.2, ∀ t ∈ q.2,
      t.2.Pairwise (fun c₁ c₂ => commitSortVal c₂ ≤ commitSortVal c₁)) := by
  have hrepN : ∀ date : String, (keysOf ((dictGet g date).getD [])).Nodup := by
    intro date
    cases hd : dictGet g date with
    | none => simp [keysOf]
    | some repos => exact h2 _ (mem_of_dictGet hd)
  have hbrN : ∀ date rn : String,
      (keysOf ((dictGet ((dictGet g date).getD []) rn).getD [])).Nodup := by
    intro date rn
    cases hd : dictGet g date with
    | none =>
      simp [dictGet, keysOf]
    | some repos =>
      simp only [Option.getD_some]
      cases hd2 : dictGet repos rn with
      | none => simp [keysOf]
      | some brs => exact h3 _ (mem_of_dictGet hd) _ (mem_of_dictGet hd2)
  refine ⟨?_, ?_, ?_, ?_⟩
  · simp only [renderHierarchy, List.map_map]
    rw [List.pairwise_map]
    exact pySorted_desc_strict h1
  · intro p hp
    simp only [renderHierarchy, List.mem_map] at hp
    obtain ⟨date, -, rfl⟩ := hp
    rw [List.map_map, List.pairwise_map]
    exact pySorted_asc_strict (hrepN date)
  · intro p hp q hq
    simp only [renderHierarchy, List.mem_map] at hp
    obtain ⟨date, -, rfl⟩ := hp
    simp only [List.mem_map] at hq
    obtain ⟨rn, -, rfl⟩ := hq
    rw [List.map_map, List.pairwise_map]
    exact pySorted_asc_strict (hbrN date rn)
  · intro p hp q hq t ht
    simp only [renderHierarchy, List.mem_map] at hp
    obtain ⟨date, -, rfl⟩ := hp
    simp only [List.mem_map] at hq
    obtain ⟨rn, -, rfl⟩ := hq
    simp only [List.mem_map] at ht
    obtain ⟨bn, -, rfl⟩ := ht
    refine (pySorted_pairwise (fun x y => commitLe_total x y) commitLe_trans _).imp ?_
    intro a b hab
    simpa using hab

/-- C3 (witness): the ordering theorem applied to the aggregation of the two
sample commits, plus the spec's concrete example — the 2024-01-02 date
section is emitted before 2024-01-01. -/
theorem C3_renderer_ordering_witness :
    (((renderHierarchy (organize_commits_by_date_and_repo
        [sampleCommit1, sampleCommit2])).map Prod.fst).Pairwise
      (fun a b => pyStrLe b a = true ∧ a ≠ b) ∧
    (∀ p ∈ renderHierarchy (organize_commits_by_date_and_repo
        [sampleCommit1, sampleCommit2]),
      (p.2.map Prod.fst).Pairwise (fun a b => pyStrLe a b = true ∧ a ≠ b)) ∧
    (∀ p ∈ renderHierarchy (organize_commits_by_date_and_repo
        [sampleCommit1, sampleCommit2]), ∀ q ∈ p.2,
      (q.2.map Prod.fst).Pairwise (fun a b => pyStrLe a b = true ∧ a ≠ b)) ∧
    (∀ p ∈ renderHierarchy (organize_commits_by_date_and_repo
        [sampleCommit1, sampleCommit2]), ∀ q ∈ p.2, ∀ t ∈ q.2,
      t.2.Pairwise (fun c₁ c₂ => commitSortVal c₂ ≤ commitSortVal c₁))) ∧
    ((renderHierarchy (organize_commits_by_date_and_repo
        [sampleCommit1, sampleCommit2])).map Prod.fst =
      ["2024-01-02", "2024-01-01"]) :=
  ⟨C3_renderer_ordering (organize_commits_by_date_and_repo
      [sampleCommit1, sampleCommit2]) (by decide) (by decide) (by decide),
    by decide⟩

/-! ### Message normalization and truncation (C8, C10) -/

theorem head?_dropWhile_pySpace :
    ∀ (l : List Char) {ch : Char},
      (l.dropWhile isPySpace).head? = some ch → isPySpace ch = false := by
  intro l
  induction l with
  | nil =>
    intro ch h
    simp [List.dropWhile] at h
  | cons c rest ih =>
    intro ch h
    by_cases hc : isPySpace c
    · rw [List.dropWhile_cons_of_pos hc] at h
      exact ih h
    · rw [List.dropWhile_cons_of_neg hc] at h
      simp at h
      rw [← h]
      exact Bool.eq_false_iff.mpr hc

theorem getLast?_dropWhile_pySpace (l : List Char) {ch : Char}
    (h : (l.dropWhile isPySpace).getLast? = some ch) :
    (l.getLast? = some ch) ∨ l.dropWhile isPySpace = [] := by
  rcases List.dropWhile_suffix (l := l) (p := isPySpace) with ⟨t, ht⟩
  cases hd : l.dropWhile isPySpace with
  | nil => exact Or.inr rfl
  | cons x xs =>
    left
    rw [hd] at ht h
    rw [← ht]
    rw [List.getLast?_append, h]
    rfl

/-- The head of a stripped string is not whitespace. -/
theorem head?_pyStripL {l : List Char} {ch : Char}
    (h : (pyStripL l).head? = some ch) : isPySpace ch = false := by
  unfold pyStripL at h
  rw [List.head?_reverse] at h
  rcases getLast?_dropWhile_pySpace _ h with h' | h'
  · rw [List.getLast?_reverse] at h'
    exact head?_dropWhile_pySpace _ h'
  · rw [h'] at h
    simp at h

/-- The last character of a stripped string is not whitespace. -/
theorem getLast?_pyStripL {l : List Char} {ch : Char}
    (h : (pyStripL l).getLast? = some ch) : isPySpace ch = false := by
  unfold pyStripL at h
  rw [List.getLast?_reverse] at h
  exact head?_dropWhile_pySpace _ h

theorem renderMessage_eq (msg : String) :
    renderMessage msg =
      (⟨(pyReplace (pyStrip msg) "\n" " ").data.take 100⟩ : String) ++
        (if 100 < (pyStrip msg).length then "..." else "") := rfl

theorem pyReplace_newline_map (s : String) :
    pyReplace s "\n" " " = ⟨s.data.map fun ch => if ch = '\n' then ' ' else ch⟩ := by
  unfold pyReplace
  rw [show ("\n".data : List Char) = ['\n'] from rfl,
    show (" ".data : List Char) = [' '] from rfl, replaceL_single]

theorem pyReplace_newline_length (s : String) :
    (pyReplace s "\n" " ").length = s.length := by
  rw [pyReplace_newline_map]
  show (s.data.map _).length = s.data.length
  simp

/-- C8: for the whitespace-normalized message `m = strip(msg).replace('\n',
' ')` — whose length equals `len(strip(msg))`, the quantity both decisions
use — a message longer than 100 characters renders as exactly its first 100
characters followed by the three-character `"..."` marker, and a message of
100 characters or fewer renders unmodified with no marker; for a message
that is already stripped and single-line this holds verbatim of the message
itself. -/
theorem C8_message_truncation (msg : String) :
    (100 < (pyReplace (pyStrip msg) "\n" " ").length →
      renderMessage msg =
        (⟨(pyReplace (pyStrip msg) "\n" " ").data.take 100⟩ : String) ++ "..." ∧
      ((pyReplace (pyStrip msg) "\n" " ").data.take 100).length = 100) ∧
    ((pyReplace (pyStrip msg) "\n" " ").length ≤ 100 →
      renderMessage msg = pyReplace (pyStrip msg) "\n" " ") ∧
    (pyStrip msg = msg → (∀ ch ∈ msg.data, ch ≠ '\n') →
      (100 < msg.length →
        renderMessage msg = (⟨msg.data.take 100⟩ : String) ++ "...") ∧
      (msg.length ≤ 100 → renderMessage msg = msg)) := by
  have hlen := pyReplace_newline_length (pyStrip msg)
  have hdl : (pyReplace (pyStrip msg) "\n" " ").data.length =
      (pyReplace (pyStrip msg) "\n" " ").length := rfl
  have part1 : 100 < (pyReplace (pyStrip msg) "\n" " ").length →
      renderMessage msg =
        (⟨(pyReplace (pyStrip msg) "\n" " ").data.take 100⟩ : String) ++ "..." ∧
      ((pyReplace (pyStrip msg) "\n" " ").data.take 100).length = 100 := by
    intro h
    have hcond : 100 < (pyStrip msg).length := by omega
    constructor
    · rw [renderMessage_eq, if_pos hcond]
    · rw [List.length_take]
      omega
  have part2 : (pyReplace (pyStrip msg) "\n" " ").length ≤ 100 →
      renderMessage msg = pyReplace (pyStrip msg) "\n" " " := by
    intro h
    have hcond : ¬ 100 < (pyStrip msg).length := by omega
    rw [renderMessage_eq, if_neg hcond,
      List.take_of_length_le (by omega), String.append_empty]
  refine ⟨part1, part2, ?_⟩
  intro hs hnl
  have hnorm : pyReplace (pyStrip msg) "\n" " " = msg := by
    rw [hs, pyReplace_newline_map]
    have hmap : msg.data.map (fun ch => if ch = '\n' then ' ' else ch) =
        msg.data.map id := by
      apply List.map_congr_left
      intro a ha
      simp [hnl a ha]
    rw [hmap, List.map_id]
  constructor
  · intro h
    have := part1 (by rw [hnorm]; exact h)
    rw [hnorm] at this
    exact this.1
  · intro h
    have := part2 (by rw [hnorm]; exact h)
    rw [hnorm] at this
    exact this

/-- C10: the renderer normalizes each commit message before the truncation
decision — leading/trailing whitespace is stripped, every internal newline
becomes a single space (a length-preserving character map, so the truncation
and marker conditions both measure the stripped message) — and consequently
every rendered message is a single line (no newline characters) with no
leading or trailing whitespace. -/
theorem C10_message_normalization (msg : String) :
    renderMessage msg =
      (⟨(pyReplace (pyStrip msg) "\n" " ").data.take 100⟩ : String) ++
        (if 100 < (pyStrip msg).length then "..." else "") ∧
    (pyReplace (pyStrip msg) "\n" " ").length = (pyStrip msg).length ∧
    pyReplace (pyStrip msg) "\n" " " =
      ⟨(pyStrip msg).data.map fun ch => if ch = '\n' then ' ' else ch⟩ ∧
    '\n' ∉ (renderMessage msg).data ∧
    (∀ ch, (renderMessage msg).data.head? = some ch → isPySpace ch = false) ∧
    (∀ ch, (renderMessage msg).data.getLast? = some ch → isPySpace ch = false) := by
  have hmap := pyReplace_newline_map (pyStrip msg)
  have hlen := pyReplace_newline_length (pyStrip msg)
  have hnl : ∀ ch ∈ (pyStrip msg).data.map fun c => if c = '\n' then ' ' else c,
      ch ≠ '\n' := by
    intro ch hch
    simp only [List.mem_map] at hch
    obtain ⟨c, -, rfl⟩ := hch
    by_cases hc : c = '\n'
    · simp [hc]
    · simp [hc]
  have hdata : (renderMessage msg).data =
      ((pyStrip msg).data.map fun c => if c = '\n' then ' ' else c).take 100 ++
        (if 100 < (pyStrip msg).length then "..." else "").data := by
    rw [renderMessage_eq, String.data_append, hmap]
  refine ⟨renderMessage_eq msg, hlen, hmap, ?_, ?_, ?_⟩
  · rw [hdata]
    intro hmem
    rcases List.mem_append.mp hmem with hm | hm
    · exact hnl _ (List.take_subset _ _ hm) rfl
    · by_cases hc : 100 < (pyStrip msg).length
      · rw [if_pos hc] at hm
        simp at hm
      · rw [if_neg hc] at hm
        simp at hm
  · intro ch hch
    rw [hdata] at hch
    cases hstrip : (pyStrip msg).data with
    | nil =>
      rw [hstrip] at hch
      have hc : ¬ 100 < (pyStrip msg).length := by
        have : (pyStrip msg).length = ((pyStrip msg).data).length := rfl
        rw [this, hstrip]
        simp
      rw [if_neg hc] at hch
      simp at hch
    | cons s0 srest =>
      rw [hstrip] at hch
      rw [List.map_cons, show (100 : Nat) = 99 + 1 from rfl, List.take_succ_cons] at hch
      simp only [List.cons_append, List.head?_cons, Option.some.injEq] at hch
      have hs0 : isPySpace s0 = false := by
        apply head?_pyStripL (l := msg.data)
        show ((pyStrip msg).data).head? = some s0
        rw [hstrip]
        rfl
      have hs0n : s0 ≠ '\n' := by
        intro he
        rw [he] at hs0
        simp [isPySpace] at hs0
      rw [← hch]
      simp [hs0n, hs0]
  · intro ch hch
    rw [hdata] at hch
    by_cases hc : 100 < (pyStrip msg).length
    · rw [if_pos hc, List.getLast?_append] at hch
      rw [show ("...".data : List Char) = ['.', '.', '.'] from rfl] at hch
      simp at hch
      rw [← hch]
      decide
    · rw [if_neg hc, List.getLast?_append] at hch
      simp only [show ("".data : List Char) = [] from rfl, List.getLast?_nil,
        Option.none_or] at hch
      have htake : ((pyStrip msg).data.map fun c => if c = '\n' then ' ' else c).take 100 =
          (pyStrip msg).data.map fun c => if c = '\n' then ' ' else c := by
        apply List.take_of_length_le
        rw [List.length_map]
        show ((pyStrip msg).length ≤ 100)
        omega
      rw [htake, List.getLast?_map] at hch
      cases hlast : ((pyStrip msg).data).getLast? with
      | none =>
        rw [hlast] at hch
        simp at hch
      | some s1 =>
        rw [hlast] at hch
        have hch' : (if s1 = '\n' then ' ' else s1) = ch := by
          simpa using hch
        have hs1 : isPySpace s1 = false := getLast?_pyStripL hlast
        have hs1n : s1 ≠ '\n' := by
          intro he
          rw [he] at hs1
          simp [isPySpace] at hs1
        rw [← hch']
        simp [hs1n, hs1]

set_option maxRecDepth 8192 in
/-- C8 (witness): the truncation theorem applied to a 150-character message
(rendered as 100 characters plus `"..."`) and to a short message (rendered
unmodified). -/
theorem C8_message_truncation_witness :
    renderMessage (String.mk (List.replicate 150 'a')) =
      (⟨(pyReplace (pyStrip (String.mk (List.replicate 150 'a'))) "\n" " ").data.take 100⟩ : String)
        ++ "..." ∧
    renderMessage "Fix bug" = pyReplace (pyStrip "Fix bug") "\n" " " ∧
    renderMessage "Fix bug" = "Fix bug" :=
  ⟨((C8_message_truncation (String.mk (List.replicate 150 'a'))).1 (by decide)).1,
    (C8_message_truncation "Fix bug").2.1 (by decide),
    ((C8_message_truncation "Fix bug").2.2 (by decide) (by decide)).2 (by decide)⟩

/-- C10 (witness): the normalization theorem applied to a message with
leading whitespace and an internal newline. -/
theorem C10_message_normalization_witness :
    renderMessage "  Fix bug\nand more  " =
      (⟨(pyReplace (pyStrip "  Fix bug\nand more  ") "\n" " ").data.take 100⟩ : String) ++
        (if 100 < (pyStrip "  Fix bug\nand more  ").length then "..." else "") ∧
    '\n' ∉ (renderMessage "  Fix bug\nand more  ").data ∧
    renderMessage "  Fix bug\nand more  " = "Fix bug and more" :=
  ⟨(C10_message_normalization "  Fix bug\nand more  ").1,
    (C10_message_normalization "  Fix bug\nand more  ").2.2.2.1,
    by decide⟩

/-! ### The branch resolver (`get_commit_branches`) -/

/-- A `refs` response entry (`{'name': ...}`); `none` models a missing
`name` key, whose `ref['name']` access raises `KeyError`. -/
structure RefEntry where
  name : Option String
deriving DecidableEq, Repr

/-- The remote behavior visible to `get_commit_branches` (git_rep_gen.py):
the refs-listing call — a transport exception or a status code paired with
the JSON decoding outcome of the body — and the per-candidate containment
probe — a per-call exception or a status code.  (URL construction is
commodity transport, folded into the oracle.) -/
structure BranchApi where
  refs : Except Unit (Nat × Except Unit (List RefEntry))
  probe : String → Except Unit Nat

/-- `for ref in data.get('value', []): if ref['name'].startswith('refs/heads/'):
all_branches.append(ref['name'].replace('refs/heads/', ''))`. -/
def collectBranchNames : List RefEntry → Except PyErr (List String)
  | [] => .ok []
  | e :: rest =>
    match e.name with
    | none => .error .keyError
    | some n =>
      (collectBranchNames rest).map fun tail =>
        if ("refs/heads/".data).isPrefixOf n.data then
          pyReplace n "refs/heads/" "" :: tail
        else tail

/-- The preferred-name pass: `for branch in common_branches: if branch in
all_branches: branches_to_check.append(branch)`. -/
def preferred_branches (all_branches : List String) : List String :=
  ["main", "master", "develop", "dev", "feature"].foldl
    (fun acc branch => if branch ∈ all_branches then acc ++ [branch] else acc) []

/-- The full candidate list: the preferred names present in the repository,
then `for branch in all_branches[:3]: if branch not in branches_to_check:
branches_to_check.append(branch)`. -/
def branches_to_check (all_branches : List String) : List String :=
  (all_branches.take 3).foldl
    (fun acc branch => if branch ∈ acc then acc else acc ++ [branch])
    (preferred_branches all_branches)

/-- Whether a probe of branch `b` comes back HTTP 200 (the code's
"commit is contained in this branch" signal). -/
def probeConfirms (probe : String → Except Unit Nat) (b : String) : Bool :=
  match probe b with
  | .ok status => status == 200
  | .error _ => false

/-- The probe loop: candidates in order; a 200 response appends to
`branches_found`; a per-candidate exception is swallowed (`except:
continue`); the loop breaks once two branches are confirmed.  Returns
`branches_found` together with the trace of candidates actually probed. -/
def probeLoop (probe : String → Except Unit Nat) :
    List String → List String → List String × List String
  | found, [] => (found, [])
  | found, b :: rest =>
    match probe b with
    | .error _ =>
      ((probeLoop probe found rest).1, b :: (probeLoop probe found rest).2)
    | .ok status =>
      let found' := if status == 200 then found ++ [b] else found
      if 2 ≤ found'.length then (found', [b])
      else ((probeLoop probe found' rest).1, b :: (probeLoop probe found' rest).2)

/-- `get_commit_branches` (git_rep_gen.py): list head refs, build the
candidate list, probe; every failure path — transport error, non-200
status, malformed JSON, missing keys, or no confirmed candidate — yields
the sentinel `['main/master']`, never an exception. -/
def get_commit_branches (api : BranchApi) : List String :=
  match
    (do
      let (status, jsonBody) ← api.refs.mapError fun _ => PyErr.transportError
      if status == 200 then do
        let value ← jsonBody.mapError fun _ => PyErr.jsonError
        let all_branches ← collectBranchNames value
        if (probeLoop api.probe [] (branches_to_check all_branches)).1.isEmpty then
          pure ["main/master"]
        else
          pure (probeLoop api.probe [] (branches_to_check all_branches)).1
      else
        pure ["main/master"] : Except PyErr (List String))
  with
  | .ok bs => bs
  | .error _ => ["main/master"]

/-- The remote behavior visible to `get_commit_branches`
(azure_commits_pdf.py): a single refs-for-commit call. -/
structure AzureApi where
  refs : Except Unit (Nat × Except Unit (List RefEntry))

/-- `get_commit_branches` (azure_commits_pdf.py): list the refs containing
the commit; on any failure or an empty result return `['unknown']`. -/
def azure_get_commit_branches (api : AzureApi) : List String :=
  match
    (do
      let (status, jsonBody) ← api.refs.mapError fun _ => PyErr.transportError
      if status == 200 then do
        let branches ← (jsonBody.mapError fun _ => PyErr.jsonError).bind collectBranchNames
        if branches.isEmpty then pure ["unknown"] else pure branches
      else
        pure ["unknown"] : Except PyErr (List String))
  with
  | .ok bs => bs
  | .error _ => ["unknown"]

theorem extrasFold_spec :
    ∀ (es acc : List String),
      ∃ extras,
        es.foldl (fun a b => if b ∈ a then a else a ++ [b]) acc = acc ++ extras ∧
        extras.length ≤ es.length ∧ ∀ b ∈ extras, b ∈ es ∧ b ∉ acc := by
  intro es
  induction es with
  | nil =>
    intro acc
    exact ⟨[], by simp, by simp, by simp⟩
  | cons e es ih =>
    intro acc
    by_cases he : e ∈ acc
    · simp only [List.foldl_cons, if_pos he]
      obtain ⟨extras, h1, h2, h3⟩ := ih acc
      exact ⟨extras, h1, Nat.le_trans h2 (by simp),
        fun b hb => ⟨List.mem_cons_of_mem _ (h3 b hb).1, (h3 b hb).2⟩⟩
    · simp only [List.foldl_cons, if_neg he]
      obtain ⟨extras, h1, h2, h3⟩ := ih (acc ++ [e])
      refine ⟨e :: extras, ?_, ?_, ?_⟩
      · rw [h1]
        simp
      · simpa using Nat.succ_le_succ h2
      · intro b hb
        rcases List.mem_cons.mp hb with heq | hb'
        · rw [heq]
          exact ⟨by simp, he⟩
        · obtain ⟨hb1, hb2⟩ := h3 b hb'
          exact ⟨List.mem_cons_of_mem _ hb1,
            fun hbc => hb2 (List.mem_append_left _ hbc)⟩

theorem extrasFold_nodup :
    ∀ (es acc : List String), acc.Nodup →
      (es.foldl (fun a b => if b ∈ a then a else a ++ [b]) acc).Nodup := by
  intro es
  induction es with
  | nil => exact fun acc h => h
  | cons e es ih =>
    intro acc h
    by_cases he : e ∈ acc
    · simp only [List.foldl_cons, if_pos he]
      exact ih acc h
    · simp only [List.foldl_cons, if_neg he]
      exact ih (acc ++ [e]) (by simp [List.nodup_append, h, he])

theorem foldl_append_ite {α : Type} (p : α → Prop) [DecidablePred p] :
    ∀ (l acc : List α),
      l.foldl (fun a x => if p x then a ++ [x] else a) acc =
        acc ++ l.filter fun x => decide (p x) := by
  intro l
  induction l with
  | nil =>
    intro acc
    simp
  | cons x l ih =>
    intro acc
    by_cases hx : p x
    · simp [List.foldl_cons, hx, ih, List.filter_cons]
    · simp [List.foldl_cons, hx, ih, List.filter_cons]

theorem preferred_branches_eq (all_branches : List String) :
    preferred_branches all_branches =
      ["main", "master", "develop", "dev", "feature"].filter
        fun b => decide (b ∈ all_branches) := by
  unfold preferred_branches
  rw [foldl_append_ite (fun b => b ∈ all_branches)]
  simp

theorem preferred_branches_nodup (all_branches : List String) :
    (preferred_branches all_branches).Nodup := by
  rw [preferred_branches_eq]
  exact List.Nodup.filter _ (by decide)

theorem branches_to_check_nodup (all_branches : List String) :
    (branches_to_check all_branches).Nodup :=
  extrasFold_nodup _ _ (preferred_branches_nodup all_branches)

theorem branches_to_check_spec (all_branches : List String) :
    ∃ extras,
      branches_to_check all_branches = preferred_branches all_branches ++ extras ∧
      extras.length ≤ 3 ∧
      ∀ b ∈ extras, b ∈ all_branches ∧ b ∉ preferred_branches all_branches := by
  obtain ⟨extras, h1, h2, h3⟩ :=
    extrasFold_spec (all_branches.take 3) (preferred_branches all_branches)
  refine ⟨extras, h1, Nat.le_trans h2 (by simp), ?_⟩
  intro b hb
  obtain ⟨hb1, hb2⟩ := h3 b hb
  exact ⟨List.take_subset _ _ hb1, hb2⟩

theorem probeLoop_spec (probe : String → Except Unit Nat) :
    ∀ (cands found : List String), found.length ≤ 1 →
      ((probeLoop probe found cands).2 <+: cands) ∧
      (probeLoop probe found cands).1 =
        found ++ (probeLoop probe found cands).2.filter (probeConfirms probe) ∧
      (probeLoop probe found cands).1.length ≤ 2 ∧
      ((probeLoop probe found cands).1.length < 2 →
        (probeLoop probe found cands).2 = cands) ∧
      ((probeLoop probe found cands).1.length = 2 →
        ∃ bl, (probeLoop probe found cands).2.getLast? = some bl ∧
          probeConfirms probe bl = true) := by
  intro cands
  induction cands with
  | nil =>
    intro found hf
    refine ⟨by simp [probeLoop], by simp [probeLoop], by simp [probeLoop]; omega, ?_, ?_⟩
    · intro
      simp [probeLoop]
    · intro h2
      simp [probeLoop] at h2
      omega
  | cons b rest ih =>
    intro found hf
    cases hpb : probe b with
    | error e =>
      have hconf : probeConfirms probe b = false := by
        simp [probeConfirms, hpb]
      have heq : probeLoop probe found (b :: rest) =
          ((probeLoop probe found rest).1, b :: (probeLoop probe found rest).2) := by
        simp [probeLoop, hpb]
      obtain ⟨ih1, ih2, ih3, ih4, ih5⟩ := ih found hf
      rw [heq]
      refine ⟨?_, ?_, ih3, ?_, ?_⟩
      · simpa [List.cons_prefix_cons] using ih1
      · simp [List.filter_cons, hconf, ih2]
      · intro hlt
        simp only at hlt
        rw [ih4 hlt]
      · intro h2
        simp only at h2
        obtain ⟨bl, hbl1, hbl2⟩ := ih5 h2
        refine ⟨bl, ?_, hbl2⟩
        cases ht : (probeLoop probe found rest).2 with
        | nil =>
          rw [ht] at hbl1
          simp at hbl1
        | cons x xs =>
          rw [ht] at hbl1
          show (b :: x :: xs).getLast? = some bl
          rw [List.getLast?_cons_cons]
          exact hbl1
    | ok status =>
      by_cases hs : (status == 200) = true
      · have hconf : probeConfirms probe b = true := by
          simp [probeConfirms, hpb, hs]
        by_cases hpos : found = []
        · subst hpos
          have heq : probeLoop probe [] (b :: rest) =
              ((probeLoop probe [b] rest).1, b :: (probeLoop probe [b] rest).2) := by
            simp [probeLoop, hpb, hs]
          obtain ⟨ih1, ih2, ih3, ih4, ih5⟩ := ih [b] (by simp)
          rw [heq]
          refine ⟨?_, ?_, ih3, ?_, ?_⟩
          · simpa [List.cons_prefix_cons] using ih1
          · simpa [List.filter_cons, hconf] using ih2
          · intro hlt
            simp only at hlt
            rw [ih4 hlt]
          · intro h2
            simp only at h2
            obtain ⟨bl, hbl1, hbl2⟩ := ih5 h2
            refine ⟨bl, ?_, hbl2⟩
            cases ht : (probeLoop probe [b] rest).2 with
            | nil =>
              rw [ht] at hbl1
              simp at hbl1
            | cons x xs =>
              rw [ht] at hbl1
              show (b :: x :: xs).getLast? = some bl
              rw [List.getLast?_cons_cons]
              exact hbl1
        · have hlen1 : found.length = 1 := by
            have := List.length_pos.mpr hpos
            omega
          have heq : probeLoop probe found (b :: rest) = (found ++ [b], [b]) := by
            simp [probeLoop, hpb, hs, hlen1]
          rw [heq]
          refine ⟨⟨rest, rfl⟩, ?_, ?_, ?_, ?_⟩
          · simp [List.filter_cons, hconf]
          · simp [hlen1]
          · intro hlt
            simp [hlen1] at hlt
          · intro h2
            exact ⟨b, by simp, hconf⟩
      · have hs' : (status == 200) = false := by
          revert hs
          cases status == 200 <;> simp
        have hconf : probeConfirms probe b = false := by
          simp [probeConfirms, hpb, hs']
        have hlt2 : ¬ 2 ≤ found.length := by
          omega
        have heq : probeLoop probe found (b :: rest) =
            ((probeLoop probe found rest).1, b :: (probeLoop probe found rest).2) := by
          simp [probeLoop, hpb, hs', hlt2]
        obtain ⟨ih1, ih2, ih3, ih4, ih5⟩ := ih found hf
        rw [heq]
        refine ⟨?_, ?_, ih3, ?_, ?_⟩
        · simpa [List.cons_prefix_cons] using ih1
        · simp [List.filter_cons, hconf, ih2]
        · intro hlt
          simp only at hlt
          rw [ih4 hlt]
        · intro h2
          simp only at h2
          obtain ⟨bl, hbl1, hbl2⟩ := ih5 h2
          refine ⟨bl, ?_, hbl2⟩
          cases ht : (probeLoop probe found rest).2 with
          | nil =>
            rw [ht] at hbl1
            simp at hbl1
          | cons x xs =>
            rw [ht] at hbl1
            show (b :: x :: xs).getLast? = some bl
            rw [List.getLast?_cons_cons]
            exact hbl1

/-- C4: branch resolution never propagates an exception (every failure path
is handled inside the function, which is why its embedding is total), always
returns a non-empty branch list, and returns the fixed sentinel when the
refs call fails outright or when no candidate branch confirms containment.
Covers both source files (`['main/master']` in git_rep_gen.py, `['unknown']`
in azure_commits_pdf.py). -/
theorem C4_branch_resolution_error_policy (api : BranchApi) (aapi : AzureApi) :
    get_commit_branches api ≠ [] ∧
    azure_get_commit_branches aapi ≠ [] ∧
    (api.refs = .error () → get_commit_branches api = ["main/master"]) ∧
    ((∀ b, probeConfirms api.probe b = false) →
      get_commit_branches api = ["main/master"]) ∧
    (aapi.refs = .error () → azure_get_commit_branches aapi = ["unknown"]) := by
  have hgit : ∀ P : List String → Prop, P ["main/master"] →
      (∀ all_branches,
        P (if (probeLoop api.probe [] (branches_to_check all_branches)).1.isEmpty
            then ["main/master"]
            else (probeLoop api.probe [] (branches_to_check all_branches)).1)) →
      P (get_commit_branches api) := by
    intro P hsent hfound
    unfold get_commit_branches
    cases href : api.refs with
    | error e =>
      simp [href, Except.mapError, Except.bind, bind]
      exact hsent
    | ok p =>
      obtain ⟨status, jsonBody⟩ := p
      by_cases hst : (status == 200) = true
      · cases hjson : jsonBody with
        | error e =>
          simp [href, hjson, hst, Except.mapError, Except.bind, bind]
          exact hsent
        | ok value =>
          cases hcoll : collectBranchNames value with
          | error e =>
            simp [href, hjson, hst, hcoll, Except.mapError, Except.bind, bind]
            exact hsent
          | ok all_branches =>
            by_cases hemp :
                (probeLoop api.probe [] (branches_to_check all_branches)).1.isEmpty
            · simp [href, hjson, hst, hcoll, hemp, Except.mapError, Except.bind, bind,
                pure, Except.pure]
              simpa [hemp] using hfound all_branches
            · simp [href, hjson, hst, hcoll, hemp, Except.mapError, Except.bind, bind,
                pure, Except.pure]
              simpa [hemp] using hfound all_branches
      · have hst' : (status == 200) = false := by
          revert hst
          cases status == 200 <;> simp
        simp [href, hst', Except.mapError, Except.bind, bind, pure, Except.pure]
        exact hsent
  have hazure : ∀ P : List String → Prop, P ["unknown"] →
      (∀ branches : List String, branches ≠ [] → P branches) →
      P (azure_get_commit_branches aapi) := by
    intro P hsent hok
    unfold azure_get_commit_branches
    cases href : aapi.refs with
    | error e =>
      simp [href, Except.mapError, Except.bind, bind]
      exact hsent
    | ok p =>
      obtain ⟨status, jsonBody⟩ := p
      by_cases hst : (status == 200) = true
      · cases hjson : jsonBody with
        | error e =>
          simp [href, hjson, hst, Except.mapError, Except.bind, bind]
          exact hsent
        | ok value =>
          cases hcoll : collectBranchNames value with
          | error e =>
            simp [href, hjson, hst, hcoll, Except.mapError, Except.bind, bind]
            exact hsent
          | ok branches =>
            by_cases hemp : branches.isEmpty
            · simp [href, hjson, hst, hcoll, hemp, Except.mapError, Except.bind, bind,
                pure, Except.pure]
              exact hsent
            · simp [href, hjson, hst, hcoll, hemp, Except.mapError, Except.bind, bind,
                pure, Except.pure]
              exact hok branches (by simpa [List.isEmpty_iff] using hemp)
      · have hst' : (status == 200) = false := by
          revert hst
          cases status == 200 <;> simp
        simp [href, hst', Except.mapError, Except.bind, bind, pure, Except.pure]
        exact hsent
  refine ⟨?_, ?_, ?_, ?_, ?_⟩
  · apply hgit (fun x => x ≠ [])
    · simp
    · intro all_branches
      by_cases hemp : (probeLoop api.probe [] (branches_to_check all_branches)).1.isEmpty
      · simp [hemp]
      · simp only [if_neg hemp]
        simpa [List.isEmpty_iff] using hemp
  · apply hazure (fun x => x ≠ [])
    · simp
    · exact fun branches h => h
  · intro href
    unfold get_commit_branches
    simp [href, Except.mapError, Except.bind, bind]
  · intro hall
    apply hgit (fun x => x = ["main/master"])
    · rfl
    · intro all_branches
      obtain ⟨-, h2, -, -, -⟩ :=
        probeLoop_spec api.probe (branches_to_check all_branches) [] (by simp)
      have hnilf : (probeLoop api.probe [] (branches_to_check all_branches)).1 = [] := by
        rw [h2]
        simp only [List.nil_append]
        rw [List.filter_eq_nil_iff.mpr]
        intro a ha
        simp [hall a]
      simp [hnilf]
  · intro href
    unfold azure_get_commit_branches
    simp [href, Except.mapError, Except.bind, bind]

theorem C4_branch_resolution_error_policy_witness :
    get_commit_branches ⟨Except.error (), fun _ => Except.error ()⟩ = ["main/master"] ∧
    azure_get_commit_branches ⟨Except.error ()⟩ = ["unknown"] ∧
    get_commit_branches
        ⟨Except.ok (200, Except.ok [⟨some "refs/heads/main"⟩, ⟨some "refs/heads/dev"⟩]),
          fun _ => Except.error ()⟩ = ["main/master"] := by
  have h1 := C4_branch_resolution_error_policy
    ⟨Except.error (), fun _ => Except.error ()⟩ ⟨Except.error ()⟩
  have h2 := C4_branch_resolution_error_policy
    ⟨Except.ok (200, Except.ok [⟨some "refs/heads/main"⟩, ⟨some "refs/heads/dev"⟩]),
      fun _ => Except.error ()⟩ ⟨Except.error ()⟩
  exact ⟨h1.2.2.1 rfl, h1.2.2.2.2 rfl, h2.2.2.2.1 (fun b => rfl)⟩

/-- C5: the resolver's candidate list is the fixed preferred names
(`main, master, develop, dev, feature`) filtered to those present in the
repository, followed by at most three further branches drawn from the full
list and not already included; the probe loop touches each candidate at most
once (its probe trace is a duplicate-free prefix of the candidate list), the
confirmed set is exactly the confirmed members of that trace, never more than
two branches are collected, the trace covers the whole candidate list unless
two confirmations occur, and when two are collected the trace stops at the
second confirming candidate. -/
theorem C5_candidate_list_and_bounded_probes
    (all_branches : List String) (probe : String → Except Unit Nat) :
    (preferred_branches all_branches =
      ["main", "master", "develop", "dev", "feature"].filter
        fun b => decide (b ∈ all_branches)) ∧
    (∃ extras,
      branches_to_check all_branches = preferred_branches all_branches ++ extras ∧
      extras.length ≤ 3 ∧
      ∀ b ∈ extras, b ∈ all_branches ∧ b ∉ preferred_branches all_branches) ∧
    ((probeLoop probe [] (branches_to_check all_branches)).2 <+:
      branches_to_check all_branches) ∧
    (probeLoop probe [] (branches_to_check all_branches)).2.Nodup ∧
    ((probeLoop probe [] (branches_to_check all_branches)).1 =
      (probeLoop probe [] (branches_to_check all_branches)).2.filter
        (probeConfirms probe)) ∧
    (probeLoop probe [] (branches_to_check all_branches)).1.length ≤ 2 ∧
    ((probeLoop probe [] (branches_to_check all_branches)).1.length < 2 →
      (probeLoop probe [] (branches_to_check all_branches)).2 =
        branches_to_check all_branches) ∧
    ((probeLoop probe [] (branches_to_check all_branches)).1.length = 2 →
      ∃ bl, (probeLoop probe [] (branches_to_check all_branches)).2.getLast? = some bl ∧
        probeConfirms probe bl = true) := by
  obtain ⟨h1, h2, h3, h4, h5⟩ :=
    probeLoop_spec probe (branches_to_check all_branches) [] (by simp)
  exact ⟨preferred_branches_eq all_branches, branches_to_check_spec all_branches, h1,
    h1.sublist.nodup (branches_to_check_nodup all_branches), by simpa using h2,
    h3, h4, h5⟩

theorem C5_candidate_list_and_bounded_probes_witness :
    branches_to_check ["main", "featureX", "dev", "topic1", "topic2"] =
      ["main", "dev", "featureX"] ∧
    probeLoop
        (fun b => if b = "main" then Except.ok 200
          else if b = "dev" then Except.ok 200
          else if b = "topic1" then Except.error ()
          else Except.ok 404)
        [] (branches_to_check ["main", "featureX", "dev", "topic1", "topic2"]) =
      (["main", "dev"], ["main", "dev"]) ∧
    (∃ bl,
      (probeLoop
        (fun b => if b = "main" then Except.ok 200
          else if b = "dev" then Except.ok 200
          else if b = "topic1" then Except.error ()
          else Except.ok 404)
        [] (branches_to_check ["main", "featureX", "dev", "topic1", "topic2"])).2.getLast?
          = some bl ∧
      probeConfirms
        (fun b => if b = "main" then Except.ok 200
          else if b = "dev" then Except.ok 200
          else if b = "topic1" then Except.error ()
          else Except.ok 404) bl = true) := by
  have h := C5_candidate_list_and_bounded_probes
    ["main", "featureX", "dev", "topic1", "topic2"]
    (fun b => if b = "main" then Except.ok 200
      else if b = "dev" then Except.ok 200
      else if b = "topic1" then Except.error ()
      else Except.ok 404)
  exact ⟨by decide, by decide, h.2.2.2.2.2.2.2 (by decide)⟩

/-! ### Commit fetching (fetch_commits, git_rep_gen.py lines 57-123)

Raw commits as decoded from JSON: every field access in the source goes
through `.get` with a default (author email/name) or a direct key lookup
(`commit['commitId']`), so the raw fields are optional. -/

structure RawAuthor where
  name : Option String
  email : Option String
  date : Option String
deriving DecidableEq, Repr

structure RawCommit where
  commitId : Option String
  author : Option RawAuthor
  comment : Option String
deriving DecidableEq, Repr

/-- `commit.get('author', {}).get('email', '')`. -/
def rawAuthorEmail (c : RawCommit) : String :=
  ((c.author.getD ⟨none, none, none⟩).email).getD ""

/-- `commit.get('author', {}).get('name', '')`. -/
def rawAuthorName (c : RawCommit) : String :=
  ((c.author.getD ⟨none, none, none⟩).name).getD ""

/-- The client-side keep test (lines 92-100): lowercase both author fields
and the filter, keep when the filter occurs in the email, occurs in the
name, equals the email, or equals the name. -/
def keepByAuthor (author_filter : String) (c : RawCommit) : Bool :=
  let author_email := pyLower (rawAuthorEmail c)
  let author_name := pyLower (rawAuthorName c)
  let author_filter_lower := pyLower author_filter
  containsL author_email.data author_filter_lower.data ||
  containsL author_name.data author_filter_lower.data ||
  author_email == author_filter_lower ||
  author_name == author_filter_lower

/-- The filtering loop (lines 90-102): append each kept commit to
`filtered_commits` in order. -/
def filter_commits_by_author (author_filter : String)
    (commits : List RawCommit) : List RawCommit :=
  commits.foldl
    (fun acc c => if keepByAuthor author_filter c then acc ++ [c] else acc) []

/-- `containsL s pat` (the embedding of Python `pat in s`) decides the
sublist-of-consecutive-elements relation. -/
theorem containsL_spec (s pat : List Char) :
    containsL s pat = true ↔ pat <:+: s := by
  induction s with
  | nil =>
    simp [containsL, List.isEmpty_iff]
  | cons c rest ih =>
    rw [ List.infix_cons_iff]
    simp [containsL, ih,  List.isPrefixOf_iff_prefix]

theorem filter_commits_eq (f : String) (l : List RawCommit) :
    filter_commits_by_author f l = l.filter (keepByAuthor f) := by
  unfold filter_commits_by_author
  rw [foldl_append_ite (fun c => keepByAuthor f c = true)]
  simp

theorem keepByAuthor_iff (f : String) (c : RawCommit) :
    keepByAuthor f c = true ↔
      ((pyLower f).data <:+: (pyLower (rawAuthorEmail c)).data ∨
       (pyLower f).data <:+: (pyLower (rawAuthorName c)).data ∨
       pyLower (rawAuthorEmail c) = pyLower f ∨
       pyLower (rawAuthorName c) = pyLower f) := by
  unfold keepByAuthor
  simp only [Bool.or_eq_true, containsL_spec, beq_iff_eq]
  constructor
  · rintro (((h | h) | h) | h)
    · exact Or.inl h
    · exact Or.inr (Or.inl h)
    · exact Or.inr (Or.inr (Or.inl h))
    · exact Or.inr (Or.inr (Or.inr h))
  · rintro (h | h | h | h)
    · exact Or.inl (Or.inl (Or.inl h))
    · exact Or.inl (Or.inl (Or.inr h))
    · exact Or.inl (Or.inr h)
    · exact Or.inr h

/-- C7: for every non-empty author filter and every commit list, the
client-side filter keeps a commit exactly when the lowercased filter occurs
as a contiguous substring of the lowercased author email or of the
lowercased author name, or equals either of them; kept commits retain their
order, so the result is precisely the sublist of matches.  Filtering is
case-insensitive because both sides are lowercased first. -/
theorem C7_author_filter (author_filter : String) (commits : List RawCommit)
    (hne : author_filter ≠ "") :
    filter_commits_by_author author_filter commits =
      commits.filter (keepByAuthor author_filter) ∧
    ∀ c, c ∈ filter_commits_by_author author_filter commits ↔
      (c ∈ commits ∧
        ((pyLower author_filter).data <:+: (pyLower (rawAuthorEmail c)).data ∨
         (pyLower author_filter).data <:+: (pyLower (rawAuthorName c)).data ∨
         pyLower (rawAuthorEmail c) = pyLower author_filter ∨
         pyLower (rawAuthorName c) = pyLower author_filter)) := by
  refine ⟨filter_commits_eq author_filter commits, ?_⟩
  intro c
  rw [filter_commits_eq, List.mem_filter, keepByAuthor_iff]

theorem C7_author_filter_witness :
    "alice@example.com" ≠ "" ∧
    (⟨some "id1", some ⟨some "Alice", some "Alice@Example.com",
        some "2024-01-02T10:00:00Z"⟩, some "m1"⟩ : RawCommit) ∈
      filter_commits_by_author "alice@example.com"
        [⟨some "id1", some ⟨some "Alice", some "Alice@Example.com",
            some "2024-01-02T10:00:00Z"⟩, some "m1"⟩,
         ⟨some "id2", some ⟨some "Bob", some "bob@example.com",
            some "2024-01-01T23:00:00Z"⟩, some "m2"⟩] ∧
    (⟨some "id2", some ⟨some "Bob", some "bob@example.com",
        some "2024-01-01T23:00:00Z"⟩, some "m2"⟩ : RawCommit) ∉
      filter_commits_by_author "alice@example.com"
        [⟨some "id1", some ⟨some "Alice", some "Alice@Example.com",
            some "2024-01-02T10:00:00Z"⟩, some "m1"⟩,
         ⟨some "id2", some ⟨some "Bob", some "bob@example.com",
            some "2024-01-01T23:00:00Z"⟩, some "m2"⟩] := by
  have h := C7_author_filter "alice@example.com"
    [⟨some "id1", some ⟨some "Alice", some "Alice@Example.com",
        some "2024-01-02T10:00:00Z"⟩, some "m1"⟩,
     ⟨some "id2", some ⟨some "Bob", some "bob@example.com",
        some "2024-01-01T23:00:00Z"⟩, some "m2"⟩] (by decide)
  refine ⟨by decide, ?_, by decide⟩
  exact (h.2 _).mpr ⟨by decide, Or.inr (Or.inr (Or.inl (by decide)))⟩

/-- An enriched commit: the raw fetched commit plus the identity and branch
fields the loop at lines 105-113 attaches. -/
structure EnrichedCommit where
  raw : RawCommit
  repository : String
  organization : String
  project : String
  branches : List String
deriving DecidableEq, Repr

/-- The remote behavior visible to one `fetch_commits` call: the
commit-listing response (transport exception, or a status code paired with
the JSON decoding outcome of the body), and the branch-resolution oracle
looked up by commit id. -/
structure FetchApi where
  commitsResp : Except Unit (Nat × Except Unit (List RawCommit))
  branchApiOf : String → BranchApi

/-- `if author_filter:` — Python truthiness: the client-side filter runs
only when the filter is present and non-empty. -/
def applyAuthorFilter (author_filter : Option String)
    (commits : List RawCommit) : List RawCommit :=
  match author_filter with
  | none => commits
  | some f => if f = "" then commits else filter_commits_by_author f commits

/-- The enrichment loop (lines 105-113): attach repository, organization and
project; with `skip_branches` every commit gets `['main']`, otherwise
`commit['commitId']` is read (KeyError when absent) and the branch resolver
is consulted. -/
def enrichCommits (branchApiOf : String → BranchApi)
    (repo_name organization project : String) (skip_branches : Bool) :
    List RawCommit → Except PyErr (List EnrichedCommit)
  | [] => .ok []
  | c :: rest =>
    if skip_branches then
      (enrichCommits branchApiOf repo_name organization project skip_branches rest).map
        fun tail => ⟨c, repo_name, organization, project, ["main"]⟩ :: tail
    else
      match c.commitId with
      | none => .error .keyError
      | some cid =>
        (enrichCommits branchApiOf repo_name organization project skip_branches rest).map
          fun tail =>
            ⟨c, repo_name, organization, project,
              get_commit_branches (branchApiOf cid)⟩ :: tail

/-- The body of the `try` block of `fetch_commits` (lines 59-116): parse the
URL, issue the listing call (`raise_for_status` raises on any status ≥ 400),
decode the JSON, apply the client-side author filter, run the enrichment
loop, and return the enriched list. -/
def fetch_commits_body (api : FetchApi) (repo_url : String)
    (skip_branches : Bool) (author_filter : Option String) :
    Except PyErr (List EnrichedCommit) := do
  let (organization, project, repo_name) ← parse_repo_url repo_url
  let (status, jsonBody) ← api.commitsResp.mapError fun _ => PyErr.transportError
  if 400 ≤ status then
    Except.error PyErr.transportError
  else do
    let rawCommits ← jsonBody.mapError fun _ => PyErr.jsonError
    let commits := applyAuthorFilter author_filter rawCommits
    enrichCommits api.branchApiOf repo_name organization project skip_branches commits

/-- `fetch_commits` (lines 57-123): the whole body sits in one `try`; both
`except` arms return `[]`. -/
def fetch_commits (api : FetchApi) (repo_url : String)
    (skip_branches : Bool) (author_filter : Option String) :
    List EnrichedCommit :=
  match fetch_commits_body api repo_url skip_branches author_filter with
  | .ok commits => commits
  | .error _ => []

theorem enrichCommits_error_of_missing_id
    (branchApiOf : String → BranchApi) (repo_name organization project : String) :
    ∀ l : List RawCommit, (∃ c ∈ l, c.commitId = none) →
      enrichCommits branchApiOf repo_name organization project false l =
        .error PyErr.keyError := by
  intro l
  induction l with
  | nil =>
    rintro ⟨c, hc, -⟩
    simp at hc
  | cons c rest ih =>
    rintro ⟨d, hd, hid⟩
    rcases List.mem_cons.mp hd with h | h
    · subst h
      simp [enrichCommits, hid]
    · cases hcid : c.commitId with
      | none => simp [enrichCommits, hcid]
      | some cid =>
        simp [enrichCommits, hcid]
        rw [ih ⟨d, h, hid⟩]
        simp [Except.map]

/-- C9: every failure during a single repository's fetch — an unparseable
URL, a transport exception, an HTTP error status, a malformed JSON body, or
a missing key discovered mid-way through the enrichment loop — is absorbed
by the surrounding `try`: the call returns `[]` for that repository and
never propagates the exception; and because the return value is the `try`
body's value or `[]`, no partially accumulated commit list is ever returned
(a non-empty result certifies the whole body succeeded and equals its full
output).  The azure_commits_pdf.py variant is the same shape without the
author filter and skip toggle. -/
theorem C9_fetch_error_containment (api : FetchApi) (repo_url : String)
    (skip_branches : Bool) (author_filter : Option String) :
    (∀ e, fetch_commits_body api repo_url skip_branches author_filter = .error e →
      fetch_commits api repo_url skip_branches author_filter = []) ∧
    (∀ commits,
      fetch_commits_body api repo_url skip_branches author_filter = .ok commits →
      fetch_commits api repo_url skip_branches author_filter = commits) ∧
    (api.commitsResp = .error () →
      fetch_commits api repo_url skip_branches author_filter = []) ∧
    (∀ status jsonBody, api.commitsResp = .ok (status, jsonBody) → 400 ≤ status →
      fetch_commits api repo_url skip_branches author_filter = []) ∧
    (∀ status, api.commitsResp = .ok (status, .error ()) → ¬ 400 ≤ status →
      fetch_commits api repo_url skip_branches author_filter = []) ∧
    (fetch_commits api repo_url skip_branches author_filter ≠ [] →
      fetch_commits_body api repo_url skip_branches author_filter =
        .ok (fetch_commits api repo_url skip_branches author_filter)) ∧
    (∀ status rawCommits, api.commitsResp = .ok (status, .ok rawCommits) →
      ¬ 400 ≤ status → skip_branches = false →
      (∃ c ∈ applyAuthorFilter author_filter rawCommits, c.commitId = none) →
      fetch_commits api repo_url skip_branches author_filter = []) := by
  have hfe : ∀ e,
      fetch_commits_body api repo_url skip_branches author_filter = .error e →
      fetch_commits api repo_url skip_branches author_filter = [] := by
    intro e he
    simp [fetch_commits, he]
  have hfo : ∀ commits,
      fetch_commits_body api repo_url skip_branches author_filter = .ok commits →
      fetch_commits api repo_url skip_branches author_filter = commits := by
    intro commits hc
    simp [fetch_commits, hc]
  refine ⟨hfe, hfo, ?_, ?_, ?_, ?_, ?_⟩
  · intro href
    cases hp : parse_repo_url repo_url with
    | error e =>
      exact hfe e (by simp [fetch_commits_body, hp, Except.bind, bind])
    | ok t =>
      obtain ⟨o, pr, rn⟩ := t
      exact hfe .transportError
        (by simp [fetch_commits_body, hp, href, Except.bind, bind, Except.mapError])
  · intro status jsonBody href h4
    cases hp : parse_repo_url repo_url with
    | error e =>
      exact hfe e (by simp [fetch_commits_body, hp, Except.bind, bind])
    | ok t =>
      obtain ⟨o, pr, rn⟩ := t
      exact hfe .transportError
        (by simp [fetch_commits_body, hp, href, h4, Except.bind, bind, Except.mapError])
  · intro status href hlt
    cases hp : parse_repo_url repo_url with
    | error e =>
      exact hfe e (by simp [fetch_commits_body, hp, Except.bind, bind])
    | ok t =>
      obtain ⟨o, pr, rn⟩ := t
      exact hfe .jsonError
        (by simp [fetch_commits_body, hp, href, hlt, Except.bind, bind, Except.mapError])
  · intro hne
    cases hb : fetch_commits_body api repo_url skip_branches author_filter with
    | error e => exact absurd (hfe e hb) hne
    | ok commits =>
      rw [hfo commits hb]
  · intro status rawCommits href hlt hsk hex
    subst hsk
    cases hp : parse_repo_url repo_url with
    | error e =>
      exact hfe e (by simp [fetch_commits_body, hp, Except.bind, bind])
    | ok t =>
      obtain ⟨o, pr, rn⟩ := t
      refine hfe PyErr.keyError ?_
      simp [fetch_commits_body, hp, href, hlt, Except.bind, bind, Except.mapError]
      exact enrichCommits_error_of_missing_id api.branchApiOf rn o pr _ hex

theorem C9_fetch_error_containment_witness :
    fetch_commits
      ⟨Except.error (), fun _ => ⟨Except.error (), fun _ => Except.error ()⟩⟩
      "https://dev.azure.com/myorg/myproj/_git/myrepo" false none = [] ∧
    fetch_commits
      ⟨Except.ok (200, Except.ok
          [⟨some "abcdef1234", some ⟨some "Alice", some "Alice@Example.com",
              some "2024-01-02T10:00:00Z"⟩, some "msg"⟩]),
        fun _ => ⟨Except.error (), fun _ => Except.error ()⟩⟩
      "https://dev.azure.com/myorg/myproj/_git/myrepo" false none =
      [⟨⟨some "abcdef1234", some ⟨some "Alice", some "Alice@Example.com",
          some "2024-01-02T10:00:00Z"⟩, some "msg"⟩,
        "myrepo", "myorg", "myproj", ["main/master"]⟩] ∧
    fetch_commits
      ⟨Except.ok (200, Except.ok
          [⟨some "abcdef1234", some ⟨some "Alice", some "Alice@Example.com",
              some "2024-01-02T10:00:00Z"⟩, some "msg"⟩,
           ⟨none, none, none⟩]),
        fun _ => ⟨Except.error (), fun _ => Except.error ()⟩⟩
      "https://dev.azure.com/myorg/myproj/_git/myrepo" false none = [] := by
  have hb := C9_fetch_error_containment
    ⟨Except.error (), fun _ => ⟨Except.error (), fun _ => Except.error ()⟩⟩
    "https://dev.azure.com/myorg/myproj/_git/myrepo" false none
  have hg := C9_fetch_error_containment
    ⟨Except.ok (200, Except.ok
        [⟨some "abcdef1234", some ⟨some "Alice", some "Alice@Example.com",
            some "2024-01-02T10:00:00Z"⟩, some "msg"⟩]),
      fun _ => ⟨Except.error (), fun _ => Except.error ()⟩⟩
    "https://dev.azure.com/myorg/myproj/_git/myrepo" false none
  have hm := C9_fetch_error_containment
    ⟨Except.ok (200, Except.ok
        [⟨some "abcdef1234", some ⟨some "Alice", some "Alice@Example.com",
            some "2024-01-02T10:00:00Z"⟩, some "msg"⟩,
         ⟨none, none, none⟩]),
      fun _ => ⟨Except.error (), fun _ => Except.error ()⟩⟩
    "https://dev.azure.com/myorg/myproj/_git/myrepo" false none
  exact ⟨hb.2.2.1 rfl, hg.2.1 _ (by decide),
    hm.2.2.2.2.2.2 200 _ rfl (by decide) rfl (by decide)⟩
